import Mathlib

/-!
Verification of the subgraph extraction and path-enumeration engine of a
knowledge-graph QA service.

The development shallowly embeds the relevant Python code:
  * `Neo4jService.get_subgraph` (collection of raw path records into
    deduplicated node/edge indexes, optional label filtering, and
    connectivity repair),
  * `Neo4jService.get_format_subgraph_paths` (adjacency / in-degree model
    construction and DFS-based root-to-leaf path enumeration),
  * the hop filter used by `_build_paths` / `step2_get_subgraph`.

Python dicts are insertion-ordered, so they are modelled as ordered
association lists with insert-or-update (`ASet`) and lookup (`AGet`).
Fallible Python code (KeyError / IndexError / RecursionError) is modelled
in the `Except String` monad.  Store-internal integer ids (the `id`,
`start`, `end` entries of the normalized dicts) are carried by the source
but never read by any of the algorithms verified here, and are omitted
from the records.  Property values are modelled as strings: the algorithms
only ever consume string-valued properties (`name`, `title`,
`description`, `relation_type`).
-/

section AssocList

variable {κ α : Type} [DecidableEq κ]

/-- Ordered-dict lookup (`d.get(k)` / `d[k]`): value of the entry with key `k`
(keys are unique in every dict built below, so first match is the entry). -/
def AGet : List (κ × α) → κ → Option α
  | [], _ => none
  | p :: rest, k => if p.1 = k then some p.2 else AGet rest k

/-- Ordered-dict membership test (`k in d`). -/
def AMem : List (κ × α) → κ → Bool
  | [], _ => false
  | p :: rest, k => if p.1 = k then true else AMem rest k

/-- Ordered-dict assignment (`d[k] = v`): update in place if the key is
present (keeping its position), otherwise append at the end, as Python
dicts do. -/
def ASet (m : List (κ × α)) (k : κ) (v : α) : List (κ × α) :=
  if AMem m k then m.map (fun p => if p.1 = k then (k, v) else p) else m ++ [(k, v)]

/-- Key list of an ordered dict, in insertion order (`d.keys()`). -/
def keysOf (m : List (κ × α)) : List κ :=
  m.map (fun p => p.1)

end AssocList

/-- Error-propagating left fold: the meaning of a Python `for` loop whose
body may raise. -/
def foldE {α β : Type} (f : β → α → Except String β) : β → List α → Except String β
  | b, [] => .ok b
  | b, a :: l =>
    match f b a with
    | .error e => .error e
    | .ok b2 => foldE f b2 l

/-- Property map of a store node or relationship. -/
abbrev PropMap := List (String × String)

/-- A raw node as returned by the graph store: stable element identifier,
label set (as a list) and property map. -/
structure RawNode where
  element_id : String
  labels : List String
  properties : PropMap
deriving DecidableEq

/-- A raw relationship as returned by the graph store, referencing its two
raw endpoint nodes. -/
structure RawRel where
  element_id : String
  rel_type : String
  start_node : RawNode
  end_node : RawNode
  properties : PropMap
deriving DecidableEq

/-- One raw path record (`p` in `RETURN p`): the nodes and relationships
of one bounded walk from the start entity. -/
structure RawPath where
  nodes : List RawNode
  relationships : List RawRel
deriving DecidableEq

/-- A normalized node dict as produced by `_normalize_node` plus the
`element_id` entry added by `get_subgraph`. -/
structure Node where
  element_id : String
  name : String
  description : String
  labels : List String
  properties : PropMap
deriving DecidableEq

/-- A normalized edge dict as produced by `_normalize_rel` plus the
`element_id` / `start_node_element_id` / `end_node_element_id` entries
added by `get_subgraph`. -/
structure Edge where
  element_id : String
  rel_type : String
  properties : PropMap
  start_node_element_id : String
  end_node_element_id : String
deriving DecidableEq

/-- The `{nodes, edges}` structure returned by `get_subgraph` (the `stats`
entry is derived display data and is not modelled). -/
structure Subgraph where
  nodes : List Node
  edges : List Edge
deriving DecidableEq

/-- Python truthiness fallback `a or b` for an optional string: `None` and
the empty string are falsy. -/
def pyOrS : Option String → String → String
  | some s, b => if s = "" then b else s
  | none, b => b

/-- Stand-in for Python `str(properties)`: only reached when both `name`
and `title` are missing or empty; its exact text is immaterial to every
algorithm verified here. -/
def reprProps (props : PropMap) : String :=
  String.intercalate ", " (props.map (fun p => p.1 ++ ": " ++ p.2))

/-- `Neo4jService._normalize_node`, with the `element_id` entry that
`get_subgraph` adds to the resulting dict. -/
def normalize_node (rn : RawNode) : Node :=
  { element_id := rn.element_id
  , name := pyOrS (AGet rn.properties "name") (pyOrS (AGet rn.properties "title") (reprProps rn.properties))
  , description := pyOrS (AGet rn.properties "description") ""
  , labels := rn.labels
  , properties := rn.properties }

/-- Membership test `node_labels is None or any(label in node_labels_list
for label in node_labels)` from `get_subgraph`. -/
def labelFilterOk (node_labels : Option (List String)) (node_labels_list : List String) : Bool :=
  match node_labels with
  | none => true
  | some ls => ls.any (fun label => node_labels_list.contains label)

/-- The per-node body of the collection loop of `get_subgraph`: idempotent
insert into the unfiltered index `all_nodes_map`, plus insert into the
filtered index `nodes_map` when the label filter passes.  State is the
pair `(all_nodes_map, nodes_map)` as ordered value lists. -/
def collectNode (node_labels : Option (List String)) (st : List Node × List Node) (rn : RawNode) : List Node × List Node :=
  if st.1.any (fun n => decide (n.element_id = rn.element_id)) then st
  else
    ( st.1 ++ [normalize_node rn]
    , if labelFilterOk node_labels rn.labels then st.2 ++ [normalize_node rn] else st.2 )

/-- The per-relationship body of the collection loop of `get_subgraph`:
insert into `edges_map` keyed by the relationship's own element id. -/
def collectRel (st : List Edge) (rr : RawRel) : List Edge :=
  if st.any (fun e => decide (e.element_id = rr.element_id)) then st
  else
    st ++ [ { element_id := rr.element_id
            , rel_type := rr.rel_type
            , properties := rr.properties
            , start_node_element_id := rr.start_node.element_id
            , end_node_element_id := rr.end_node.element_id } ]

/-- Processing of one raw path record by `get_subgraph`: all its nodes,
then all its relationships. -/
def collectPath (node_labels : Option (List String)) (st : (List Node × List Node) × List Edge) (p : RawPath) : (List Node × List Node) × List Edge :=
  (p.nodes.foldl (collectNode node_labels) st.1, p.relationships.foldl collectRel st.2)

/-- Pull-back of a missing edge endpoint in the connectivity repair of
`get_subgraph`: append the node with the given element id from
`all_nodes_map` when it is found there (`if ... in all_nodes_map`). -/
def pullback (all_nodes_map nodes : List Node) (tid : String) : List Node :=
  match all_nodes_map.find? (fun n => decide (n.element_id = tid)) with
  | some n => nodes ++ [n]
  | none => nodes

/-- First pull-back block of the repair loop: if the start endpoint is in
the filtered set and the end endpoint is not, pull the end node back in. -/
def repairNodes1 (all_nodes_map nodes : List Node) (edge : Edge) : List Node :=
  if nodes.any (fun n => decide (n.element_id = edge.start_node_element_id)) &&
      !(nodes.any (fun n => decide (n.element_id = edge.end_node_element_id))) then
    pullback all_nodes_map nodes edge.end_node_element_id
  else nodes

/-- Second pull-back block of the repair loop: `end_in_filtered` was
computed before the first block ran, but the membership recheck sees the
possibly-grown node list. -/
def repairNodes2 (all_nodes_map nodes : List Node) (edge : Edge) : List Node :=
  if nodes.any (fun n => decide (n.element_id = edge.end_node_element_id)) &&
      !((repairNodes1 all_nodes_map nodes edge).any (fun n => decide (n.element_id = edge.start_node_element_id))) then
    pullback all_nodes_map (repairNodes1 all_nodes_map nodes edge) edge.start_node_element_id
  else repairNodes1 all_nodes_map nodes edge

/-- The per-edge body of the connectivity-repair loop of `get_subgraph`.
State is `(nodes_list, valid_edges)`; membership in the Python set
`filtered_node_element_ids` is equivalent to membership of the id among
`nodes_list` (the source always updates the two together).  An edge is
kept iff one of its endpoints is in the filtered set, and keeping it pulls
back whichever endpoint is missing. -/
def repairStep (all_nodes_map : List Node) (st : List Node × List Edge) (edge : Edge) : List Node × List Edge :=
  if st.1.any (fun n => decide (n.element_id = edge.start_node_element_id)) ||
      st.1.any (fun n => decide (n.element_id = edge.end_node_element_id)) then
    (repairNodes2 all_nodes_map st.1 edge, st.2 ++ [edge])
  else st

/-- The pure part of `get_subgraph`: assemble the raw path records into the
returned `{nodes, edges}` structure (collection, then connectivity
repair). -/
def assembleSubgraph (records : List RawPath) (node_labels : Option (List String)) : Subgraph :=
  let collected := records.foldl (collectPath node_labels) (([], []), [])
  let all_nodes_map := collected.1.1
  let nodes_map := collected.1.2
  let edges_list := collected.2
  let repaired := edges_list.foldl (repairStep all_nodes_map) (nodes_map, [])
  { nodes := repaired.1, edges := repaired.2 }

/-- Parameter normalization `depth = max(1, int(depth))` of `get_subgraph`. -/
def clampDepth (depth : Int) : Int := max 1 depth

/-- Parameter normalization of `direction` in `get_subgraph`: unrecognized
values default to `both`. -/
def normalizeDirection (direction : String) : String :=
  if direction = "out" ∨ direction = "in" ∨ direction = "both" then direction else "both"

/-- The variable-length relationship pattern interpolated into the Cypher
query by `get_subgraph`. -/
def relPattern (depth : Int) (direction : String) : String :=
  if direction = "out" then "-[*1.." ++ toString depth ++ "]->"
  else if direction = "in" then "<-[*1.." ++ toString depth ++ "]-"
  else "-[*1.." ++ toString depth ++ "]-"

/-- The Cypher text built by `get_subgraph`; `name`, `graph_id` and `limit`
are passed separately as query parameters and do not depend on `depth` or
`direction`. -/
def subgraphCypher (depth : Int) (direction : String) : String :=
  "MATCH (start) WHERE start.name = $name AND start.graph_id = $graph_id " ++
    "MATCH p=(start)" ++ relPattern depth direction ++ "(m) WHERE m.graph_id = $graph_id RETURN p LIMIT $limit"

/-- `Neo4jService.get_subgraph`, with the graph store abstracted as a
function `fetch` from the Cypher query text to the raw path records it
returns (depth and direction influence the call only through that text). -/
def get_subgraph (fetch : String → List RawPath) (depth : Int) (direction : String) (node_labels : Option (List String)) : Subgraph :=
  let depth2 := clampDepth depth
  let direction2 := normalizeDirection direction
  assembleSubgraph (fetch (subgraphCypher depth2 direction2)) node_labels

/-- The `node_map` of `get_format_subgraph_paths`: element id to
`(name, description)`. -/
abbrev NodeMap := List (String × (String × String))

/-- The adjacency map `ne`: element id to list of successor element ids. -/
abbrev NeMap := List (String × List String)

/-- The in-degree counter `du`. -/
abbrev DuMap := List (String × Nat)

/-- The `edge_map`: ordered endpoint pair to `(relation_type, description)`. -/
abbrev EdgeMap := List ((String × String) × (String × String))

/-- The body of the node loop of `get_format_subgraph_paths`: skip nodes
whose first label is not `Entity` (an empty label list raises IndexError),
record `(name, description)` in `node_map` and initialize `ne` and `du`.
The `init_id` bookkeeping of the source is dead code (its only use is
commented out) and is not modelled. -/
def nodeStep (st : NodeMap × NeMap × DuMap) (node : Node) : Except String (NodeMap × NeMap × DuMap) :=
  match node.labels with
  | [] => .error "IndexError"
  | l0 :: _ =>
    if l0 = "Entity" then
      .ok ( ASet st.1 node.element_id (node.name, node.description)
          , ASet st.2.1 node.element_id []
          , ASet st.2.2 node.element_id 0 )
    else .ok st

/-- The defensive `if start_node_id not in ne: ne[start_node_id] = []` of
the edge loop (a no-op for states produced by the node loop). -/
def neInit (ne : NeMap) (s : String) : NeMap :=
  if AMem ne s then ne else ASet ne s []

/-- The body of the edge loop of `get_format_subgraph_paths`: skip edges
with an endpoint outside `node_map`; otherwise read `relation_type` and
`description` (a missing key raises KeyError), record them in `edge_map`
keyed by the ordered endpoint pair, append the end id to `ne[start]`, and
increment `du[end]`. -/
def edgeStep (node_map : NodeMap) (st : NeMap × DuMap × EdgeMap) (edge : Edge) : Except String (NeMap × DuMap × EdgeMap) :=
  if !(AMem node_map edge.start_node_element_id) || !(AMem node_map edge.end_node_element_id) then .ok st
  else
    match AGet edge.properties "relation_type" with
    | none => .error "KeyError"
    | some rt =>
      match AGet edge.properties "description" with
      | none => .error "KeyError"
      | some ds =>
        match AGet (neInit st.1 edge.start_node_element_id) edge.start_node_element_id with
        | none => .error "KeyError"
        | some lst =>
          match AGet st.2.1 edge.end_node_element_id with
          | none => .error "KeyError"
          | some dv =>
            .ok ( ASet (neInit st.1 edge.start_node_element_id) edge.start_node_element_id (lst ++ [edge.end_node_element_id])
                , ASet st.2.1 edge.end_node_element_id (dv + 1)
                , ASet st.2.2 (edge.start_node_element_id, edge.end_node_element_id) (rt, ds) )

/-- Model construction of `get_format_subgraph_paths`: the node loop, then
the edge loop. -/
def buildModel (sg : Subgraph) : Except String (NodeMap × NeMap × DuMap × EdgeMap) :=
  match foldE nodeStep ([], [], []) sg.nodes with
  | .error e => .error e
  | .ok st =>
    match foldE (edgeStep st.1) (st.2.1, st.2.2, []) sg.edges with
    | .error e => .error e
    | .ok st2 => .ok (st.1, st2.1, st2.2.1, st2.2.2)

/-- The successor iteration of `dfs`: for each successor, extend the path
string with `-> relation_type -> name` and recurse via `step`, chaining
the emitted paths in order.  Missing `edge_map` / `node_map` entries raise
KeyError (unreachable for models built by `buildModel`, but modelled). -/
def dfsSuccs (step : String → String → Except String (List String)) (em : EdgeMap) (nm : NodeMap) (node_id path : String) : List String → Except String (List String)
  | [] => .ok []
  | t :: rest =>
    match AGet em (node_id, t) with
    | none => .error "KeyError"
    | some rd =>
      match AGet nm t with
      | none => .error "KeyError"
      | some nv =>
        match step t (path ++ "->" ++ rd.1 ++ "->" ++ nv.1) with
        | .error e => .error e
        | .ok ps =>
          match dfsSuccs step em nm node_id path rest with
          | .error e => .error e
          | .ok qs => .ok (ps ++ qs)

/-- The recursive `dfs` of `get_format_subgraph_paths`, made total with a
fuel parameter: running out of fuel models Python's RecursionError (which
only a directed cycle reachable from a root can trigger, since the
top-level call supplies more fuel than there are nodes).  A node with no
(or an empty) adjacency entry emits the accumulated path string. -/
def dfs (ne : NeMap) (em : EdgeMap) (nm : NodeMap) : Nat → String → String → Except String (List String)
  | 0, _, _ => .error "RecursionError"
  | fuel + 1, node_id, path =>
    match AGet ne node_id with
    | none => .ok [path]
    | some [] => .ok [path]
    | some succs => dfsSuccs (dfs ne em nm fuel) em nm node_id path succs

/-- The root loop of `get_format_subgraph_paths`: iterate `du` in insertion
order and run `dfs` from every node of in-degree 0, starting the path at
the node's name; results accumulate in order. -/
def rootsLoop (nm : NodeMap) (ne : NeMap) (em : EdgeMap) (fuel : Nat) : List (String × Nat) → Except String (List String)
  | [] => .ok []
  | (k, d) :: rest =>
    if d = 0 then
      match AGet nm k with
      | none => .error "KeyError"
      | some nv =>
        match dfs ne em nm fuel k nv.1 with
        | .error e => .error e
        | .ok ps =>
          match rootsLoop nm ne em fuel rest with
          | .error e => .error e
          | .ok qs => .ok (ps ++ qs)
    else rootsLoop nm ne em fuel rest

/-- The body of `get_format_subgraph_paths` applied to an already-assembled
subgraph: build the model, then enumerate from every in-degree-0 node.
The fuel bound exceeds the node count, so it is never exhausted on an
acyclic adjacency model. -/
def format_subgraph_paths (sg : Subgraph) : Except String (List String) :=
  match buildModel sg with
  | .error e => .error e
  | .ok m => rootsLoop m.1 m.2.1 m.2.2.2 (sg.nodes.length + 1) m.2.2.1

/-- `Neo4jService.get_format_subgraph_paths`: extract the subgraph of the
start entity (direction `both`, label filter `['Entity']`) and enumerate
its root-to-leaf paths. -/
def get_format_subgraph_paths (fetch : String → List RawPath) (depth : Int) : Except String (List String) :=
  format_subgraph_paths (get_subgraph fetch depth "both" (some ["Entity"]))

/-- Occurrence count of the hop marker `->` in a character list, scanning
left to right exactly as Python `str.count("->")` does (the marker's two
characters differ, so overlap is impossible). -/
def countArrow : List Char → Nat
  | '-' :: '>' :: rest => 1 + countArrow rest
  | _ :: rest => countArrow rest
  | [] => 0

/-- Python `p.count("->")` on a path string. -/
def pyCountArrow (p : String) : Nat := countArrow p.data

/-- The hop filter: keep a path only if its number of `->` markers meets
the minimum (`_build_paths` uses minimum 4, `step2_get_subgraph` uses
minimum 1 via `'->' in item`). -/
def hopFilter (minMarkers : Nat) (paths : List String) : List String :=
  paths.filter (fun p => decide (minMarkers ≤ pyCountArrow p))

/-- The filter of `_build_paths`: keep only paths with at least 4 `->`
markers (two-hop paths). -/
def buildPathsFilter (paths : List String) : List String :=
  paths.filter (fun p => decide (4 ≤ pyCountArrow p))

/-- Sum of the values of a `Nat`-valued ordered dict. -/
def sumVals {κ : Type} (m : List (κ × Nat)) : Nat :=
  (m.map (fun p => p.2)).sum

/-- Character-list test: `s` starts with `pre`. -/
def startsWithL : List Char → List Char → Bool
  | _, [] => true
  | [], _ :: _ => false
  | a :: s, b :: pre => decide (a = b) && startsWithL s pre

/-- Character-list test: `sub` occurs somewhere inside `s` (Python
`sub in s`). -/
def occursIn (sub : List Char) : List Char → Bool
  | [] => startsWithL [] sub
  | a :: s => startsWithL (a :: s) sub || occursIn sub s

/-- Python substring test `sub in s` on strings. -/
def containsStr (sub s : String) : Bool :=
  occursIn sub.data s.data

/-- Reachability along the forward adjacency map `ne` built by the
enumerator: `Reach ne x z` holds when `z` can be reached from `x` by
following successor entries. -/
inductive Reach (ne : NeMap) : String → String → Prop
  | refl (x : String) : Reach ne x x
  | step (x y z : String) (succs : List String) (hx : AGet ne x = some succs)
      (hy : y ∈ succs) (hz : Reach ne y z) : Reach ne x z

/-- The `(relation_type, description)` pair of the LAST edge in the list
whose ordered endpoint pair is `(s, t)` with both endpoints in `node_map`:
the value the edge loop leaves in `edge_map[(s, t)]`, later edges
overwriting earlier ones. -/
def lastRelDesc (node_map : NodeMap) (s t : String) : List Edge → Option (String × String)
  | [] => none
  | e :: rest =>
    match lastRelDesc node_map s t rest with
    | some v => some v
    | none =>
      if e.start_node_element_id = s ∧ e.end_node_element_id = t ∧
          AMem node_map s = true ∧ AMem node_map t = true then
        match AGet e.properties "relation_type", AGet e.properties "description" with
        | some rt, some ds => some (rt, ds)
        | some _, none => none
        | none, _ => none
      else none

/-- Concrete `Entity`-labelled node for the test scenarios. -/
def entNode (eid nm : String) : Node :=
  { element_id := eid, name := nm, description := "", labels := ["Entity"], properties := [("name", nm)] }

/-- Concrete edge with well-formed properties for the test scenarios. -/
def relEdge (eid s t rt : String) : Edge :=
  { element_id := eid, rel_type := rt
  , properties := [("relation_type", rt), ("description", "d")]
  , start_node_element_id := s, end_node_element_id := t }

/-- Scenario subgraph: nodes `A`, `B`, `C`; edges `A-rel1->B`, `B-rel2->C`. -/
def sgChain : Subgraph :=
  { nodes := [entNode "nA" "A", entNode "nB" "B", entNode "nC" "C"]
  , edges := [relEdge "e1" "nA" "nB" "rel1", relEdge "e2" "nB" "nC" "rel2"] }

/-- Scenario subgraph with a directed 2-cycle: edges `A-r1->B`, `B-r2->A`. -/
def sgCycle : Subgraph :=
  { nodes := [entNode "nA" "A", entNode "nB" "B"]
  , edges := [relEdge "e1" "nA" "nB" "r1", relEdge "e2" "nB" "nA" "r2"] }

/-- Scenario subgraph with two parallel edges `A-r1->B` and `A-r2->B`
between the same ordered endpoint pair. -/
def sgParallel : Subgraph :=
  { nodes := [entNode "nA" "A", entNode "nB" "B"]
  , edges := [relEdge "e1" "nA" "nB" "r1", relEdge "e2" "nA" "nB" "r2"] }

/-- Scenario subgraph: a single isolated node `D` with no edges. -/
def sgIsolated : Subgraph :=
  { nodes := [entNode "nD" "D"], edges := [] }

/-- Scenario subgraph with an edge whose properties lack `relation_type`. -/
def sgNoRelType : Subgraph :=
  { nodes := [entNode "nA" "A", entNode "nB" "B"]
  , edges := [ { element_id := "e1", rel_type := "r1"
               , properties := [("description", "d")]
               , start_node_element_id := "nA", end_node_element_id := "nB" } ] }

/-- Scenario subgraph for the amended malformed-edge claim: the bad edge
`A->B` lacks `relation_type` while a later edge `B->C` is well-formed. -/
def sgNoRelType2 : Subgraph :=
  { nodes := [entNode "nA" "A", entNode "nB" "B", entNode "nC" "C"]
  , edges := [ { element_id := "e1", rel_type := "r1"
               , properties := [("description", "d")]
               , start_node_element_id := "nA", end_node_element_id := "nB" }
             , relEdge "e2" "nB" "nC" "r2" ] }

/-- Concrete raw node with the `Entity` label. -/
def rawEnt (eid nm : String) : RawNode :=
  { element_id := eid, labels := ["Entity"], properties := [("name", nm)] }

/-- Concrete raw node with a non-`Entity` label. -/
def rawOther (eid nm : String) : RawNode :=
  { element_id := eid, labels := ["Other"], properties := [("name", nm)] }

/-- Concrete raw relationship between two raw nodes. -/
def rawRelOf (eid : String) (a b : RawNode) (rt : String) : RawRel :=
  { element_id := eid, rel_type := rt, start_node := a, end_node := b
  , properties := [("relation_type", rt), ("description", "d")] }

/-- Raw path records where a label filter for `Entity` excludes one edge
endpoint (`n2` carries only the `Other` label). -/
def recordsBoundary : List RawPath :=
  [ { nodes := [rawEnt "n1" "A", rawOther "n2" "B"]
    , relationships := [rawRelOf "e1" (rawEnt "n1" "A") (rawOther "n2" "B") "REL"] } ]

/-- Raw path records where node `n1` occurs twice with different attribute
values (`First` in the first record, `Second` in the second). -/
def recordsDup : List RawPath :=
  [ { nodes := [rawEnt "n1" "First"], relationships := [] }
  , { nodes := [rawEnt "n1" "Second", rawEnt "n2" "Other"], relationships := [] } ]

section AssocLemmas

variable {κ α : Type} [DecidableEq κ]

theorem AGet_mem {m : List (κ × α)} {k : κ} {v : α} (h : AGet m k = some v) : (k, v) ∈ m := by
  induction m with
  | nil => cases h
  | cons p rest ih =>
    by_cases hp : p.1 = k
    · rw [AGet, if_pos hp] at h
      injection h with h
      have hpv : p = (k, v) := by
        obtain ⟨a, b⟩ := p
        simp only at hp h
        rw [hp, h]
      rw [← hpv]
      exact List.mem_cons_self _ _
    · rw [AGet, if_neg hp] at h
      exact List.mem_cons_of_mem _ (ih h)

theorem AMem_true_iff {m : List (κ × α)} {k : κ} : AMem m k = true ↔ k ∈ keysOf m := by
  induction m with
  | nil => simp [AMem, keysOf]
  | cons p rest ih =>
    by_cases hp : p.1 = k
    · simp [AMem, keysOf, if_pos hp, hp]
    · rw [AMem, if_neg hp]
      simp only [keysOf, List.map_cons, List.mem_cons]
      rw [ih]
      constructor
      · intro h; exact Or.inr h
      · rintro (h | h)
        · exact absurd h.symm hp
        · exact h

theorem AMem_false_iff {m : List (κ × α)} {k : κ} : AMem m k = false ↔ k ∉ keysOf m := by
  rw [← Bool.not_eq_true, not_iff_not]
  exact AMem_true_iff

theorem AGet_some_of_AMem {m : List (κ × α)} {k : κ} (h : AMem m k = true) : ∃ v, AGet m k = some v := by
  induction m with
  | nil => cases h
  | cons p rest ih =>
    by_cases hp : p.1 = k
    · exact ⟨p.2, by rw [AGet, if_pos hp]⟩
    · rw [AMem, if_neg hp] at h
      obtain ⟨v, hv⟩ := ih h
      exact ⟨v, by rw [AGet, if_neg hp]; exact hv⟩

theorem AMem_of_AGet_some {m : List (κ × α)} {k : κ} {v : α} (h : AGet m k = some v) : AMem m k = true := by
  induction m with
  | nil => cases h
  | cons p rest ih =>
    by_cases hp : p.1 = k
    · rw [AMem, if_pos hp]
    · rw [AGet, if_neg hp] at h
      rw [AMem, if_neg hp]
      exact ih h

theorem AGet_none_of_AMem_false {m : List (κ × α)} {k : κ} (h : AMem m k = false) : AGet m k = none := by
  cases hg : AGet m k with
  | none => rfl
  | some v => rw [AMem_of_AGet_some hg] at h; cases h

theorem AGet_append_left {m l : List (κ × α)} {k : κ} {v : α} (h : AGet m k = some v) : AGet (m ++ l) k = some v := by
  induction m with
  | nil => cases h
  | cons p rest ih =>
    rw [List.cons_append]
    by_cases hp : p.1 = k
    · rw [AGet, if_pos hp] at h ⊢; exact h
    · rw [AGet, if_neg hp] at h ⊢; exact ih h

theorem AGet_append_right {m l : List (κ × α)} {k : κ} (h : AGet m k = none) : AGet (m ++ l) k = AGet l k := by
  induction m with
  | nil => rfl
  | cons p rest ih =>
    rw [List.cons_append]
    by_cases hp : p.1 = k
    · rw [AGet, if_pos hp] at h; cases h
    · rw [AGet, if_neg hp] at h
      rw [AGet, if_neg hp]
      exact ih h

theorem AGet_map_replace_self {m : List (κ × α)} {k : κ} {v : α} (h : AMem m k = true) :
    AGet (m.map (fun p => if p.1 = k then (k, v) else p)) k = some v := by
  induction m with
  | nil => cases h
  | cons p rest ih =>
    by_cases hp : p.1 = k
    · simp only [List.map_cons, if_pos hp, AGet]
      simp
    · rw [AMem, if_neg hp] at h
      simp only [List.map_cons, if_neg hp, AGet, if_neg hp]
      exact ih h

theorem AGet_map_replace_other {m : List (κ × α)} {k k2 : κ} {v : α} (h : k2 ≠ k) :
    AGet (m.map (fun p => if p.1 = k then (k, v) else p)) k2 = AGet m k2 := by
  induction m with
  | nil => rfl
  | cons p rest ih =>
    by_cases hp : p.1 = k
    · have h1 : ¬((k, v).1 = k2) := fun hh => h (hh.symm)
      have h2 : ¬(p.1 = k2) := by rw [hp]; exact fun hh => h hh.symm
      simp only [List.map_cons, if_pos hp, AGet, if_neg h1, if_neg h2]
      exact ih
    · simp only [List.map_cons, if_neg hp, AGet]
      by_cases h2 : p.1 = k2
      · rw [if_pos h2, if_pos h2]
      · rw [if_neg h2, if_neg h2]; exact ih

theorem AGet_ASet_self {m : List (κ × α)} {k : κ} {v : α} : AGet (ASet m k v) k = some v := by
  unfold ASet
  by_cases h : AMem m k = true
  · rw [if_pos h]; exact AGet_map_replace_self h
  · rw [Bool.not_eq_true] at h
    rw [if_neg (by rw [h]; exact Bool.false_ne_true)]
    rw [AGet_append_right (AGet_none_of_AMem_false h)]
    rw [AGet, if_pos rfl]

theorem AGet_ASet_other {m : List (κ × α)} {k k2 : κ} {v : α} (h : k2 ≠ k) : AGet (ASet m k v) k2 = AGet m k2 := by
  unfold ASet
  by_cases hm : AMem m k = true
  · rw [if_pos hm]; exact AGet_map_replace_other h
  · rw [Bool.not_eq_true] at hm
    rw [if_neg (by rw [hm]; exact Bool.false_ne_true)]
    cases hg : AGet m k2 with
    | some w => exact AGet_append_left hg
    | none =>
      rw [AGet_append_right hg]
      rw [AGet, if_neg (fun hh => h hh.symm)]
      rfl

theorem keysOf_ASet_mem {m : List (κ × α)} {k : κ} {v : α} (h : AMem m k = true) : keysOf (ASet m k v) = keysOf m := by
  unfold ASet
  rw [if_pos h]
  unfold keysOf
  rw [List.map_map]
  apply List.map_congr_left
  intro p _
  by_cases hp : p.1 = k
  · simp [hp]
  · simp [hp]

theorem keysOf_ASet_new {m : List (κ × α)} {k : κ} {v : α} (h : AMem m k = false) : keysOf (ASet m k v) = keysOf m ++ [k] := by
  unfold ASet
  rw [if_neg (by rw [h]; exact Bool.false_ne_true)]
  simp [keysOf]

theorem AMem_ASet_self {m : List (κ × α)} {k : κ} {v : α} : AMem (ASet m k v) k = true :=
  AMem_of_AGet_some AGet_ASet_self

theorem AMem_ASet_of_AMem {m : List (κ × α)} {k k2 : κ} {v : α} (h : AMem m k2 = true) : AMem (ASet m k v) k2 = true := by
  by_cases he : k2 = k
  · subst he; exact AMem_ASet_self
  · obtain ⟨w, hw⟩ := AGet_some_of_AMem h
    exact AMem_of_AGet_some (by rw [AGet_ASet_other he]; exact hw)

end AssocLemmas


theorem sumVals_ASet_succ {κ : Type} [DecidableEq κ] {m : List (κ × Nat)} {k : κ} {v : Nat}
    (hnd : (keysOf m).Nodup) (hg : AGet m k = some v) :
    sumVals (ASet m k (v + 1)) = sumVals m + 1 := by
  have hm : AMem m k = true := AMem_of_AGet_some hg
  unfold ASet
  rw [if_pos hm]
  induction m with
  | nil => cases hg
  | cons p rest ih =>
    simp only [keysOf, List.map_cons, List.nodup_cons] at hnd
    by_cases hp : p.1 = k
    · rw [AGet, if_pos hp] at hg
      injection hg with hg
      have hrest : rest.map (fun q => if q.1 = k then (k, v + 1) else q) = rest := by
        have hcong : rest.map (fun q => if q.1 = k then (k, v + 1) else q) = rest.map id := by
          apply List.map_congr_left
          intro q hq
          have hqk : q.1 ≠ k := by
            intro hqk
            apply hnd.1
            rw [hp, ← hqk]
            exact List.mem_map_of_mem _ hq
          rw [if_neg hqk]
          rfl
        rw [hcong, List.map_id]
      simp only [List.map_cons, if_pos hp, hrest]
      simp [sumVals, hg]
      omega
    · rw [AGet, if_neg hp] at hg
      rw [AMem, if_neg hp] at hm
      have := ih hnd.2 hg hm
      simp only [List.map_cons, if_neg hp]
      simp only [sumVals, List.map_cons, List.sum_cons] at this ⊢
      omega

/-- C9: the hop filter is idempotent — filtering an already-filtered list
of path strings with the same minimum hop-marker count yields the same
list. -/
theorem c9_hop_filter_idempotent (minMarkers : Nat) (paths : List String) :
    hopFilter minMarkers (hopFilter minMarkers paths) = hopFilter minMarkers paths := by
  unfold hopFilter
  rw [List.filter_filter]
  simp

/-- C7: `get_subgraph` never rejects invalid parameters — `maxHops` below 1
is clamped to 1 (a call with `depth = 0` behaves exactly as `depth = 1`),
and an unrecognized direction behaves exactly as direction `both`. -/
theorem c7_invalid_params_normalized (fetch : String → List RawPath) (node_labels : Option (List String)) (depth : Int) (direction : String) :
    (depth < 1 → get_subgraph fetch depth direction node_labels = get_subgraph fetch 1 direction node_labels) ∧
    ((direction ≠ "out" ∧ direction ≠ "in" ∧ direction ≠ "both") →
      get_subgraph fetch depth direction node_labels = get_subgraph fetch depth "both" node_labels) := by
  constructor
  · intro h
    have hc : clampDepth depth = clampDepth 1 := by
      unfold clampDepth
      rw [max_eq_left (by omega), max_self]
    unfold get_subgraph
    rw [hc]
  · rintro ⟨h1, h2, h3⟩
    have hd : normalizeDirection direction = normalizeDirection "both" := by
      unfold normalizeDirection
      rw [if_neg (by tauto), if_pos (by tauto)]
    unfold get_subgraph
    rw [hd]

/-- C7 witness: at `depth = 0` and direction `"sideways"` with an empty
store, both normalizations are exercised. -/
theorem c7_witness :
    get_subgraph (fun _ => []) 0 "sideways" none = get_subgraph (fun _ => []) 1 "sideways" none ∧
    get_subgraph (fun _ => []) 0 "sideways" none = get_subgraph (fun _ => []) 0 "both" none :=
  ⟨(c7_invalid_params_normalized (fun _ => []) none 0 "sideways").1 (by norm_num),
   (c7_invalid_params_normalized (fun _ => []) none 0 "sideways").2 ⟨by decide, by decide, by decide⟩⟩

/-- C2 counterexample: on the scenario subgraph `{A,B,C}` with edges
`A-rel1->B`, `B-rel2->C` the enumerator does NOT yield the spaced string
`"A -> rel1 -> B -> rel2 -> C"`: the code joins tokens with a bare `->`
and no surrounding spaces. -/
theorem c2_counterexample : format_subgraph_paths sgChain ≠ Except.ok ["A -> rel1 -> B -> rel2 -> C"] := by
  intro h
  rw [show format_subgraph_paths sgChain = Except.ok ["A->rel1->B->rel2->C"] from rfl] at h
  injection h with h
  injection h with h1 h2
  exact absurd h1 (by decide)

/-- C2 amended: on the scenario subgraph the enumerator yields exactly one
path, the string `"A->rel1->B->rel2->C"` — entity names and relation types
alternating, joined by the literal arrow token `->` with no surrounding
spaces. -/
theorem c2_amended : format_subgraph_paths sgChain = Except.ok ["A->rel1->B->rel2->C"] := rfl

theorem edgeStep_ok_or_keyerror (nm : NodeMap) (st : NeMap × DuMap × EdgeMap) (e : Edge) :
    (∃ st2, edgeStep nm st e = .ok st2) ∨ edgeStep nm st e = .error "KeyError" := by
  unfold edgeStep
  split
  · exact Or.inl ⟨st, rfl⟩
  · split
    · exact Or.inr rfl
    · split
      · exact Or.inr rfl
      · split
        · exact Or.inr rfl
        · split
          · exact Or.inr rfl
          · exact Or.inl ⟨_, rfl⟩

theorem edgeStep_error_of_missing_rel (nm : NodeMap) (st : NeMap × DuMap × EdgeMap) (e : Edge)
    (hs : AMem nm e.start_node_element_id = true) (ht : AMem nm e.end_node_element_id = true)
    (hr : AGet e.properties "relation_type" = none) :
    edgeStep nm st e = .error "KeyError" := by
  unfold edgeStep
  rw [hs, ht]
  simp only [Bool.not_true, Bool.or_self, Bool.false_eq_true, if_false, hr]

theorem foldE_edge_error (nm : NodeMap) (e : Edge)
    (hs : AMem nm e.start_node_element_id = true) (ht : AMem nm e.end_node_element_id = true)
    (hr : AGet e.properties "relation_type" = none) :
    ∀ (edges : List Edge) (st : NeMap × DuMap × EdgeMap), e ∈ edges →
      foldE (edgeStep nm) st edges = .error "KeyError" := by
  intro edges
  induction edges with
  | nil => intro st h; cases h
  | cons a rest ih =>
    intro st hmem
    rw [foldE]
    cases hstep : edgeStep nm st a with
    | error msg =>
      rcases edgeStep_ok_or_keyerror nm st a with ⟨st2, hok⟩ | herr
      · rw [hok] at hstep; cases hstep
      · rw [herr] at hstep
        injection hstep with hmsg
        rw [hmsg]
    | ok st2 =>
      rcases List.mem_cons.mp hmem with he | he
      · rw [← he] at hstep
        rw [edgeStep_error_of_missing_rel nm st e hs ht hr] at hstep
        cases hstep
      · exact ih st2 he

/-- C6 amended: an edge whose properties lack the relation-type field is
NOT skipped — if both its endpoints are in the node map, enumeration
crashes with a key-lookup error (Python `KeyError`); the only edges the
model-construction loop skips are those with an endpoint outside the node
map. -/
theorem c6_amended (sg : Subgraph) (nm : NodeMap) (ne : NeMap) (du : DuMap) (e : Edge)
    (hn : foldE nodeStep ([], [], []) sg.nodes = .ok (nm, ne, du))
    (he : e ∈ sg.edges)
    (hs : AMem nm e.start_node_element_id = true)
    (ht : AMem nm e.end_node_element_id = true)
    (hr : AGet e.properties "relation_type" = none) :
    format_subgraph_paths sg = .error "KeyError" := by
  have hb : buildModel sg = .error "KeyError" := by
    unfold buildModel
    rw [hn]
    dsimp only
    rw [foldE_edge_error nm e hs ht hr sg.edges (ne, du, []) he]
  unfold format_subgraph_paths
  rw [hb]

/-- C6 counterexample: a subgraph with one edge (both endpoints retained)
whose properties lack `relation_type` makes the enumerator raise KeyError
instead of skipping the edge — refuting the claim that such input cannot
crash enumeration. -/
theorem c6_counterexample : format_subgraph_paths sgNoRelType = Except.error "KeyError" := rfl

/-- C6 witness: the amended theorem applied to a concrete subgraph whose
first edge lacks `relation_type` while a second edge is well-formed. -/
theorem c6_witness : format_subgraph_paths sgNoRelType2 = Except.error "KeyError" :=
  c6_amended sgNoRelType2
    [("nA", ("A", "")), ("nB", ("B", "")), ("nC", ("C", ""))]
    [("nA", []), ("nB", []), ("nC", [])]
    [("nA", 0), ("nB", 0), ("nC", 0)]
    { element_id := "e1", rel_type := "r1"
    , properties := [("description", "d")]
    , start_node_element_id := "nA", end_node_element_id := "nB" }
    rfl (by decide) rfl rfl rfl

theorem rootsLoop_mem (nm : NodeMap) (ne : NeMap) (em : EdgeMap) (fuel : Nat) :
    ∀ (l : List (String × Nat)) (acc : List String) (k : String),
      rootsLoop nm ne em fuel l = .ok acc → (k, 0) ∈ l →
      ∃ nv ps, AGet nm k = some nv ∧ dfs ne em nm fuel k nv.1 = .ok ps ∧ ∀ s ∈ ps, s ∈ acc := by
  intro l
  induction l with
  | nil => intro acc k _ hmem; cases hmem
  | cons p rest ih =>
    intro acc k hok hmem
    obtain ⟨k2, d⟩ := p
    rw [rootsLoop] at hok
    by_cases hd : d = 0
    · subst hd
      rw [if_pos rfl] at hok
      cases hg : AGet nm k2 with
      | none => rw [hg] at hok; cases hok
      | some nv =>
        rw [hg] at hok
        dsimp only at hok
        cases hdfs : dfs ne em nm fuel k2 nv.1 with
        | error msg => rw [hdfs] at hok; cases hok
        | ok ps =>
          rw [hdfs] at hok
          dsimp only at hok
          cases hrest : rootsLoop nm ne em fuel rest with
          | error msg => rw [hrest] at hok; cases hok
          | ok qs =>
            rw [hrest] at hok
            injection hok with hacc
            rcases List.mem_cons.mp hmem with he | he
            · have hk : k = k2 := (Prod.mk.injEq _ _ _ _).mp he |>.1
              subst hk
              refine ⟨nv, ps, hg, hdfs, ?_⟩
              intro s hs
              rw [← hacc]
              exact List.mem_append_left _ hs
            · obtain ⟨nv2, ps2, h1, h2, h3⟩ := ih qs k hrest he
              refine ⟨nv2, ps2, h1, h2, ?_⟩
              intro s hs
              rw [← hacc]
              exact List.mem_append_right _ (h3 s hs)
    · rw [if_neg hd] at hok
      rcases List.mem_cons.mp hmem with he | he
      · exact absurd ((Prod.mk.injEq _ _ _ _).mp he).2.symm hd
      · exact ih acc k hok he

/-- C8: an isolated node (in-degree 0 and empty adjacency entry) makes the
enumerator emit, from that root, exactly the single-node path consisting
of the node's entity name with nothing appended, and that name appears in
the returned path list. -/
theorem c8_isolated_single_node_path (sg : Subgraph) (paths : List String)
    (nm : NodeMap) (ne : NeMap) (du : DuMap) (em : EdgeMap) (k dn dd : String)
    (hm : buildModel sg = .ok (nm, ne, du, em))
    (hp : format_subgraph_paths sg = .ok paths)
    (hdu : AGet du k = some 0)
    (hne : AGet ne k = some [])
    (hnm : AGet nm k = some (dn, dd)) :
    dfs ne em nm (sg.nodes.length + 1) k dn = .ok [dn] ∧ dn ∈ paths := by
  have hleaf : dfs ne em nm (sg.nodes.length + 1) k dn = .ok [dn] := by
    simp [dfs, hne]
  refine ⟨hleaf, ?_⟩
  unfold format_subgraph_paths at hp
  rw [hm] at hp
  dsimp only at hp
  obtain ⟨nv, ps, h1, h2, h3⟩ := rootsLoop_mem nm ne em (sg.nodes.length + 1) du paths k hp (AGet_mem hdu)
  rw [hnm] at h1
  injection h1 with h1
  rw [← h1] at h2
  dsimp only at h2
  rw [hleaf] at h2
  injection h2 with h2
  apply h3
  rw [← h2]
  exact List.mem_cons_self _ _

/-- C8 witness: the isolated node `D` of `sgIsolated` yields exactly the
path `"D"`. -/
theorem c8_witness :
    dfs [("nD", [])] [] [("nD", ("D", ""))] (sgIsolated.nodes.length + 1) "nD" "D" = Except.ok ["D"] ∧ "D" ∈ ["D"] :=
  c8_isolated_single_node_path sgIsolated ["D"]
    [("nD", ("D", ""))] [("nD", [])] [("nD", 0)] [] "nD" "D" ""
    rfl rfl rfl rfl rfl

theorem AMem_congr_keys {κ α β : Type} [DecidableEq κ] {m1 : List (κ × α)} {m2 : List (κ × β)} {k : κ}
    (h : keysOf m1 = keysOf m2) : AMem m1 k = AMem m2 k := by
  by_cases hk : k ∈ keysOf m1
  · rw [AMem_true_iff.mpr hk, AMem_true_iff.mpr (h ▸ hk)]
  · rw [AMem_false_iff.mpr hk, AMem_false_iff.mpr (by rw [← h]; exact hk)]

theorem vals_ASet_zero {κ : Type} [DecidableEq κ] {m : List (κ × Nat)} {k : κ}
    (h : ∀ p ∈ m, p.2 = 0) : ∀ p ∈ ASet m k 0, p.2 = 0 := by
  unfold ASet
  split
  · intro p hp
    rw [List.mem_map] at hp
    obtain ⟨q, hq, he⟩ := hp
    by_cases hqk : q.1 = k
    · rw [if_pos hqk] at he; rw [← he]
    · rw [if_neg hqk] at he; rw [← he]; exact h q hq
  · intro p hp
    rcases List.mem_append.mp hp with h1 | h1
    · exact h p h1
    · rw [List.mem_singleton.mp h1]

theorem sumVals_zero {κ : Type} {m : List (κ × Nat)} (h : ∀ p ∈ m, p.2 = 0) : sumVals m = 0 := by
  unfold sumVals
  apply List.sum_eq_zero
  intro x hx
  rw [List.mem_map] at hx
  obtain ⟨p, hp, he⟩ := hx
  rw [← he]
  exact h p hp

theorem nodeStep_inv {st st2 : NodeMap × NeMap × DuMap} {node : Node}
    (hstep : nodeStep st node = .ok st2)
    (h1 : keysOf st.2.2 = keysOf st.1) (h2 : (keysOf st.2.2).Nodup) (h3 : ∀ p ∈ st.2.2, p.2 = 0) :
    keysOf st2.2.2 = keysOf st2.1 ∧ (keysOf st2.2.2).Nodup ∧ (∀ p ∈ st2.2.2, p.2 = 0) := by
  unfold nodeStep at hstep
  cases hl : node.labels with
  | nil => rw [hl] at hstep; cases hstep
  | cons l0 ls =>
    rw [hl] at hstep
    dsimp only at hstep
    by_cases he : l0 = "Entity"
    · rw [if_pos he] at hstep
      injection hstep with hstep
      subst hstep
      dsimp only
      have hmem : AMem st.2.2 node.element_id = AMem st.1 node.element_id := AMem_congr_keys h1
      by_cases hk : AMem st.1 node.element_id = true
      · refine ⟨?_, ?_, ?_⟩
        · rw [keysOf_ASet_mem (by rw [hmem]; exact hk), keysOf_ASet_mem hk]
          exact h1
        · rw [keysOf_ASet_mem (by rw [hmem]; exact hk)]
          exact h2
        · exact vals_ASet_zero h3
      · rw [Bool.not_eq_true] at hk
        have hk2 : AMem st.2.2 node.element_id = false := by rw [hmem]; exact hk
        refine ⟨?_, ?_, ?_⟩
        · rw [keysOf_ASet_new hk2, keysOf_ASet_new hk, h1]
        · rw [keysOf_ASet_new hk2, List.nodup_append]
          refine ⟨h2, List.nodup_singleton _, ?_⟩
          intro a ha hb
          rw [List.mem_singleton.mp hb] at ha
          exact (AMem_false_iff.mp hk2) ha
        · exact vals_ASet_zero h3
    · rw [if_neg he] at hstep
      injection hstep with hstep
      subst hstep
      exact ⟨h1, h2, h3⟩

theorem nodePhase_inv :
    ∀ (nodes : List Node) (st st' : NodeMap × NeMap × DuMap),
      foldE nodeStep st nodes = .ok st' →
      keysOf st.2.2 = keysOf st.1 → (keysOf st.2.2).Nodup → (∀ p ∈ st.2.2, p.2 = 0) →
      keysOf st'.2.2 = keysOf st'.1 ∧ (keysOf st'.2.2).Nodup ∧ (∀ p ∈ st'.2.2, p.2 = 0) := by
  intro nodes
  induction nodes with
  | nil =>
    intro st st' h h1 h2 h3
    rw [foldE] at h
    injection h with h
    subst h
    exact ⟨h1, h2, h3⟩
  | cons node rest ih =>
    intro st st' h h1 h2 h3
    rw [foldE] at h
    cases hstep : nodeStep st node with
    | error msg => rw [hstep] at h; cases h
    | ok st2 =>
      rw [hstep] at h
      dsimp only at h
      obtain ⟨g1, g2, g3⟩ := nodeStep_inv hstep h1 h2 h3
      exact ih st2 st' h g1 g2 g3

theorem edgeStep_ok_cases {nm : NodeMap} {st st2 : NeMap × DuMap × EdgeMap} {e : Edge}
    (h : edgeStep nm st e = .ok st2) :
    ((AMem nm e.start_node_element_id && AMem nm e.end_node_element_id) = false ∧ st2 = st) ∨
    ((AMem nm e.start_node_element_id && AMem nm e.end_node_element_id) = true ∧
      ∃ rt ds lst dv,
        AGet e.properties "relation_type" = some rt ∧
        AGet e.properties "description" = some ds ∧
        AGet (neInit st.1 e.start_node_element_id) e.start_node_element_id = some lst ∧
        AGet st.2.1 e.end_node_element_id = some dv ∧
        st2 = ( ASet (neInit st.1 e.start_node_element_id) e.start_node_element_id (lst ++ [e.end_node_element_id])
              , ASet st.2.1 e.end_node_element_id (dv + 1)
              , ASet st.2.2 (e.start_node_element_id, e.end_node_element_id) (rt, ds) )) := by
  unfold edgeStep at h
  by_cases hg : (!(AMem nm e.start_node_element_id) || !(AMem nm e.end_node_element_id)) = true
  · rw [if_pos hg] at h
    injection h with h
    left
    refine ⟨?_, h.symm⟩
    cases ha : AMem nm e.start_node_element_id <;> cases hb : AMem nm e.end_node_element_id <;>
      simp_all
  · rw [if_neg hg] at h
    right
    refine ⟨?_, ?_⟩
    · cases ha : AMem nm e.start_node_element_id <;> cases hb : AMem nm e.end_node_element_id <;>
        simp_all
    · cases h1 : AGet e.properties "relation_type" with
      | none => rw [h1] at h; cases h
      | some rt =>
        rw [h1] at h
        dsimp only at h
        cases h2 : AGet e.properties "description" with
        | none => rw [h2] at h; cases h
        | some ds =>
          rw [h2] at h
          dsimp only at h
          cases h3 : AGet (neInit st.1 e.start_node_element_id) e.start_node_element_id with
          | none => rw [h3] at h; cases h
          | some lst =>
            rw [h3] at h
            dsimp only at h
            cases h4 : AGet st.2.1 e.end_node_element_id with
            | none => rw [h4] at h; cases h
            | some dv =>
              rw [h4] at h
              injection h with h
              exact ⟨rt, ds, lst, dv, rfl, rfl, rfl, rfl, h.symm⟩

theorem edgeFold_sum (nm : NodeMap) :
    ∀ (edges : List Edge) (st st' : NeMap × DuMap × EdgeMap),
      foldE (edgeStep nm) st edges = .ok st' →
      keysOf st.2.1 = keysOf nm → (keysOf st.2.1).Nodup →
      keysOf st'.2.1 = keysOf nm ∧
      sumVals st'.2.1 = sumVals st.2.1 +
        (edges.filter (fun e => AMem nm e.start_node_element_id && AMem nm e.end_node_element_id)).length := by
  intro edges
  induction edges with
  | nil =>
    intro st st' h h1 h2
    rw [foldE] at h
    injection h with h
    subst h
    simp [h1]
  | cons e rest ih =>
    intro st st' h h1 h2
    rw [foldE] at h
    cases hstep : edgeStep nm st e with
    | error msg => rw [hstep] at h; cases h
    | ok st2 =>
      rw [hstep] at h
      dsimp only at h
      rcases edgeStep_ok_cases hstep with ⟨hpred, hst⟩ | ⟨hpred, rt, ds, lst, dv, _, _, _, h4, hst⟩
      · rw [hst] at h
        obtain ⟨g1, g2⟩ := ih st st' h h1 h2
        have hfil : List.filter (fun e2 => AMem nm e2.start_node_element_id && AMem nm e2.end_node_element_id) (e :: rest) = List.filter (fun e2 => AMem nm e2.start_node_element_id && AMem nm e2.end_node_element_id) rest := by
          simp [List.filter_cons, hpred]
        rw [hfil]
        exact ⟨g1, g2⟩
      · have hdukeys : keysOf st2.2.1 = keysOf st.2.1 := by
          rw [hst]
          dsimp only
          exact keysOf_ASet_mem (AMem_of_AGet_some h4)
        have hdusum : sumVals st2.2.1 = sumVals st.2.1 + 1 := by
          rw [hst]
          dsimp only
          exact sumVals_ASet_succ h2 h4
        obtain ⟨g1, g2⟩ := ih st2 st' h (by rw [hdukeys]; exact h1) (by rw [hdukeys]; exact h2)
        refine ⟨g1, ?_⟩
        have hfil : (List.filter (fun e2 => AMem nm e2.start_node_element_id && AMem nm e2.end_node_element_id) (e :: rest)).length = (List.filter (fun e2 => AMem nm e2.start_node_element_id && AMem nm e2.end_node_element_id) rest).length + 1 := by
          simp [List.filter_cons, hpred]
        rw [hfil, g2, hdusum]
        omega

/-- C5: for every subgraph whose enumerator model builds successfully, the
sum of all in-degree values in `du` equals the number of edges whose two
endpoints are both present in the enumerator's node map. -/
theorem c5_degree_sum (sg : Subgraph) (nm : NodeMap) (ne : NeMap) (du : DuMap) (em : EdgeMap)
    (hm : buildModel sg = .ok (nm, ne, du, em)) :
    sumVals du =
      (sg.edges.filter (fun e => AMem nm e.start_node_element_id && AMem nm e.end_node_element_id)).length := by
  unfold buildModel at hm
  cases hn : foldE nodeStep ([], [], []) sg.nodes with
  | error msg => rw [hn] at hm; cases hm
  | ok st =>
    rw [hn] at hm
    dsimp only at hm
    cases hedge : foldE (edgeStep st.1) (st.2.1, st.2.2, []) sg.edges with
    | error msg => rw [hedge] at hm; cases hm
    | ok st2 =>
      rw [hedge] at hm
      injection hm with hm
      simp only [Prod.mk.injEq] at hm
      obtain ⟨e1, e2, e3, e4⟩ := hm
      subst e1; subst e3
      obtain ⟨k1, k2, k3⟩ := nodePhase_inv sg.nodes ([], [], []) st hn rfl List.nodup_nil (by intro p hp; cases hp)
      obtain ⟨m1, m2⟩ := edgeFold_sum st.1 sg.edges (st.2.1, st.2.2, []) st2 hedge k1 k2
      rw [m2, sumVals_zero k3]
      omega

/-- C5 witness: on the chain subgraph the in-degree sum is 2, matching its
two retained edges. -/
theorem c5_witness :
    sumVals [("nA", 0), ("nB", 1), ("nC", 1)] =
      (sgChain.edges.filter (fun e =>
        AMem [("nA", ("A", "")), ("nB", ("B", "")), ("nC", ("C", ""))] e.start_node_element_id &&
        AMem [("nA", ("A", "")), ("nB", ("B", "")), ("nC", ("C", ""))] e.end_node_element_id)).length :=
  c5_degree_sum sgChain
    [("nA", ("A", "")), ("nB", ("B", "")), ("nC", ("C", ""))]
    [("nA", ["nB"]), ("nB", ["nC"]), ("nC", [])]
    [("nA", 0), ("nB", 1), ("nC", 1)]
    [(("nA", "nB"), ("rel1", "d")), (("nB", "nC"), ("rel2", "d"))]
    rfl

theorem edgeFold_em (nm : NodeMap) :
    ∀ (edges : List Edge) (st st' : NeMap × DuMap × EdgeMap),
      foldE (edgeStep nm) st edges = .ok st' →
      ∀ s t, AGet st'.2.2 (s, t) =
        (match lastRelDesc nm s t edges with
         | some v => some v
         | none => AGet st.2.2 (s, t)) := by
  intro edges
  induction edges with
  | nil =>
    intro st st' h s t
    rw [foldE] at h
    injection h with h
    subst h
    rfl
  | cons e rest ih =>
    intro st st' h s t
    rw [foldE] at h
    cases hstep : edgeStep nm st e with
    | error msg => rw [hstep] at h; cases h
    | ok st2 =>
      rw [hstep] at h
      dsimp only at h
      have hih := ih st2 st' h s t
      rw [lastRelDesc]
      cases hl : lastRelDesc nm s t rest with
      | some v =>
        rw [hl] at hih
        rw [hih]
      | none =>
        rw [hl] at hih
        dsimp only
        rcases edgeStep_ok_cases hstep with ⟨hpred, hst⟩ | ⟨hpred, rt, ds, lst, dv, hrt, hds, _, _, hst⟩
        · rw [hst] at hih
          rw [hih]
          have hcond : ¬(e.start_node_element_id = s ∧ e.end_node_element_id = t ∧
              AMem nm s = true ∧ AMem nm t = true) := by
            rintro ⟨c1, c2, c3, c4⟩
            rw [← c1] at c3
            rw [← c2] at c4
            rw [c3, c4] at hpred
            cases hpred
          rw [if_neg hcond]
        · rw [hst] at hih
          dsimp only at hih
          by_cases hkey : e.start_node_element_id = s ∧ e.end_node_element_id = t
          · obtain ⟨c1, c2⟩ := hkey
            have hcond : e.start_node_element_id = s ∧ e.end_node_element_id = t ∧
                AMem nm s = true ∧ AMem nm t = true := by
              refine ⟨c1, c2, ?_, ?_⟩
              · rw [← c1]; exact (Bool.and_eq_true _ _ |>.mp hpred).1
              · rw [← c2]; exact (Bool.and_eq_true _ _ |>.mp hpred).2
            rw [if_pos hcond, hrt, hds]
            rw [← c1, ← c2] at hih ⊢
            rw [hih, AGet_ASet_self]
          · have hne2 : (s, t) ≠ (e.start_node_element_id, e.end_node_element_id) := by
              intro hh
              apply hkey
              have h1 := congrArg Prod.fst hh
              have h2 := congrArg Prod.snd hh
              exact ⟨h1.symm, h2.symm⟩
            rw [hih, AGet_ASet_other hne2]
            have hcond : ¬(e.start_node_element_id = s ∧ e.end_node_element_id = t ∧
                AMem nm s = true ∧ AMem nm t = true) := by
              rintro ⟨c1, c2, _, _⟩
              exact hkey ⟨c1, c2⟩
            rw [if_neg hcond]

/-- C10: the enumerator keys edge attributes by the ordered endpoint pair —
for every successfully built model, `edge_map[(s, t)]` holds the
relation/description pair of the LAST edge in the edge list with endpoints
`(s, t)` and both endpoints retained (later parallel edges overwrite
earlier ones); on the concrete two-parallel-edge subgraph (`A-r1->B`,
`A-r2->B`) the DFS therefore emits two duplicate path strings carrying the
last-seen relation type `r2`, and `r1` occurs in no emitted path. -/
theorem c10_parallel_edge_overwrite (sg : Subgraph) (nm : NodeMap) (ne : NeMap) (du : DuMap) (em : EdgeMap)
    (hm : buildModel sg = .ok (nm, ne, du, em)) :
    (∀ s t, AGet em (s, t) = lastRelDesc nm s t sg.edges) ∧
    format_subgraph_paths sgParallel = .ok ["A->r2->B", "A->r2->B"] ∧
    (["A->r2->B", "A->r2->B"].all (fun p => !(containsStr "r1" p)) = true) := by
  refine ⟨?_, rfl, rfl⟩
  intro s t
  unfold buildModel at hm
  cases hn : foldE nodeStep ([], [], []) sg.nodes with
  | error msg => rw [hn] at hm; cases hm
  | ok st =>
    rw [hn] at hm
    dsimp only at hm
    cases hedge : foldE (edgeStep st.1) (st.2.1, st.2.2, []) sg.edges with
    | error msg => rw [hedge] at hm; cases hm
    | ok st2 =>
      rw [hedge] at hm
      injection hm with hm
      simp only [Prod.mk.injEq] at hm
      obtain ⟨e1, e2, e3, e4⟩ := hm
      subst e1; subst e4
      have := edgeFold_em st.1 sg.edges (st.2.1, st.2.2, []) st2 hedge s t
      rw [this]
      cases hl : lastRelDesc st.1 s t sg.edges with
      | some v => rfl
      | none => rfl

/-- C10 witness: on `sgParallel` the edge map holds `r2` (the last-seen
relation type) for the pair `(nA, nB)`, the enumeration yields the two
duplicate paths, and `r1` occurs in neither. -/
theorem c10_witness :
    AGet [(("nA", "nB"), ("r2", "d"))] ("nA", "nB") =
      lastRelDesc [("nA", ("A", "")), ("nB", ("B", ""))] "nA" "nB" sgParallel.edges ∧
    format_subgraph_paths sgParallel = .ok ["A->r2->B", "A->r2->B"] ∧
    (["A->r2->B", "A->r2->B"].all (fun p => !(containsStr "r1" p)) = true) :=
  ⟨(c10_parallel_edge_overwrite sgParallel
      [("nA", ("A", "")), ("nB", ("B", ""))]
      [("nA", ["nB", "nB"]), ("nB", [])]
      [("nA", 0), ("nB", 2)]
      [(("nA", "nB"), ("r2", "d"))] rfl).1 "nA" "nB",
   rfl, rfl⟩

theorem data_append (a b : String) : (a ++ b).data = a.data ++ b.data := rfl

theorem startsWithL_nil (s : List Char) : startsWithL s [] = true := by
  cases s <;> rfl

theorem startsWithL_extend : ∀ (s p r : List Char), startsWithL s p = true → startsWithL (s ++ r) p = true := by
  intro s p
  induction p generalizing s with
  | nil => intro r _; exact startsWithL_nil _
  | cons b pre ih =>
    intro r h
    cases s with
    | nil => simp [startsWithL] at h
    | cons a s2 =>
      rw [List.cons_append]
      simp only [startsWithL, Bool.and_eq_true] at h ⊢
      exact ⟨h.1, ih s2 r h.2⟩

theorem startsWithL_refl : ∀ (p : List Char), startsWithL p p = true := by
  intro p
  induction p with
  | nil => rfl
  | cons a s ih =>
    simp only [startsWithL, Bool.and_eq_true]
    exact ⟨by simp, ih⟩

theorem occursIn_of_startsWith : ∀ (s p : List Char), startsWithL s p = true → occursIn p s = true := by
  intro s p h
  cases s with
  | nil => exact h
  | cons a s2 =>
    rw [occursIn, Bool.or_eq_true]
    exact Or.inl h

theorem occursIn_self (p : List Char) : occursIn p p = true :=
  occursIn_of_startsWith p p (startsWithL_refl p)

theorem occursIn_nil_sub : ∀ (r : List Char), occursIn [] r = true := by
  intro r
  induction r with
  | nil => rfl
  | cons a s ih =>
    rw [occursIn, Bool.or_eq_true]
    exact Or.inl (startsWithL_nil _)

theorem occursIn_append_right : ∀ (l r sub : List Char), occursIn sub l = true → occursIn sub (l ++ r) = true := by
  intro l
  induction l with
  | nil =>
    intro r sub h
    rw [occursIn] at h
    cases sub with
    | nil => exact occursIn_nil_sub r
    | cons b pre => cases h
  | cons a s ih =>
    intro r sub h
    rw [occursIn, Bool.or_eq_true] at h
    rw [List.cons_append, occursIn, Bool.or_eq_true]
    rcases h with h | h
    · exact Or.inl (by rw [← List.cons_append]; exact startsWithL_extend _ _ _ h)
    · exact Or.inr (ih r sub h)

theorem occursIn_append_left : ∀ (l r sub : List Char), occursIn sub r = true → occursIn sub (l ++ r) = true := by
  intro l
  induction l with
  | nil => intro r sub h; exact h
  | cons a s ih =>
    intro r sub h
    rw [List.cons_append, occursIn, Bool.or_eq_true]
    exact Or.inr (ih r sub h)

theorem dfsSuccs_shape (step : String → String → Except String (List String)) (em : EdgeMap) (nm : NodeMap)
    (hstep : ∀ y q l, step y q = .ok l → l ≠ [] ∧ ∀ s ∈ l, ∃ u, s.data = q.data ++ u) :
    ∀ (succs : List String) (x p : String) (L : List String),
      dfsSuccs step em nm x p succs = .ok L →
      (∀ s ∈ L, ∃ u, s.data = p.data ++ u) ∧ (succs ≠ [] → L ≠ []) := by
  intro succs
  induction succs with
  | nil =>
    intro x p L h
    rw [dfsSuccs] at h
    injection h with h
    subst h
    exact ⟨(by intro s hs; cases hs), fun hne => absurd rfl hne⟩
  | cons t rest ih =>
    intro x p L h
    rw [dfsSuccs] at h
    cases h1 : AGet em (x, t) with
    | none => rw [h1] at h; cases h
    | some rd =>
      rw [h1] at h
      dsimp only at h
      cases h2 : AGet nm t with
      | none => rw [h2] at h; cases h
      | some nv =>
        rw [h2] at h
        dsimp only at h
        cases h3 : step t (p ++ "->" ++ rd.1 ++ "->" ++ nv.1) with
        | error msg => rw [h3] at h; cases h
        | ok ps =>
          rw [h3] at h
          dsimp only at h
          cases h4 : dfsSuccs step em nm x p rest with
          | error msg => rw [h4] at h; cases h
          | ok qs =>
            rw [h4] at h
            injection h with h
            subst h
            obtain ⟨hne, hpre⟩ := hstep t _ ps h3
            obtain ⟨ih1, _⟩ := ih x p qs h4
            constructor
            · intro s hs
              rcases List.mem_append.mp hs with hs | hs
              · obtain ⟨u, hu⟩ := hpre s hs
                refine ⟨("->" ++ rd.1 ++ "->" ++ nv.1).data ++ u, ?_⟩
                rw [hu]
                simp [data_append, List.append_assoc]
              · exact ih1 s hs
            · intro _ hL
              rcases List.append_eq_nil.mp hL with ⟨hps, _⟩
              exact hne hps

theorem dfs_shape (ne : NeMap) (em : EdgeMap) (nm : NodeMap) :
    ∀ (fuel : Nat) (x p : String) (L : List String),
      dfs ne em nm fuel x p = .ok L →
      L ≠ [] ∧ ∀ s ∈ L, ∃ u, s.data = p.data ++ u := by
  intro fuel
  induction fuel with
  | zero => intro x p L h; simp [dfs] at h
  | succ f ih =>
    intro x p L h
    rw [dfs] at h
    cases h1 : AGet ne x with
    | none =>
      rw [h1] at h
      injection h with h
      subst h
      refine ⟨by simp, ?_⟩
      intro s hs
      rw [List.mem_singleton.mp hs]
      exact ⟨[], by simp⟩
    | some succs =>
      rw [h1] at h
      cases succs with
      | nil =>
        dsimp only at h
        injection h with h
        subst h
        refine ⟨by simp, ?_⟩
        intro s hs
        rw [List.mem_singleton.mp hs]
        exact ⟨[], by simp⟩
      | cons t rest =>
        dsimp only at h
        obtain ⟨hpre, hne⟩ := dfsSuccs_shape (dfs ne em nm f) em nm (fun y q l hq => ih y q l hq) (t :: rest) x p L h
        exact ⟨hne (by simp), hpre⟩

theorem dfsSuccs_sub (step : String → String → Except String (List String)) (em : EdgeMap) (nm : NodeMap) :
    ∀ (succs : List String) (x p : String) (L : List String),
      dfsSuccs step em nm x p succs = .ok L →
      ∀ y ∈ succs, ∃ rd nv l, AGet em (x, y) = some rd ∧ AGet nm y = some nv ∧
        step y (p ++ "->" ++ rd.1 ++ "->" ++ nv.1) = .ok l ∧ ∀ s ∈ l, s ∈ L := by
  intro succs
  induction succs with
  | nil => intro x p L _ y hy; cases hy
  | cons t rest ih =>
    intro x p L h y hy
    rw [dfsSuccs] at h
    cases h1 : AGet em (x, t) with
    | none => rw [h1] at h; cases h
    | some rd =>
      rw [h1] at h
      dsimp only at h
      cases h2 : AGet nm t with
      | none => rw [h2] at h; cases h
      | some nv =>
        rw [h2] at h
        dsimp only at h
        cases h3 : step t (p ++ "->" ++ rd.1 ++ "->" ++ nv.1) with
        | error msg => rw [h3] at h; cases h
        | ok ps =>
          rw [h3] at h
          dsimp only at h
          cases h4 : dfsSuccs step em nm x p rest with
          | error msg => rw [h4] at h; cases h
          | ok qs =>
            rw [h4] at h
            injection h with h
            subst h
            rcases List.mem_cons.mp hy with he | he
            · subst he
              refine ⟨rd, nv, ps, h1, h2, h3, ?_⟩
              intro s hs
              exact List.mem_append_left _ hs
            · obtain ⟨rd2, nv2, l2, g1, g2, g3, g4⟩ := ih x p qs h4 y he
              refine ⟨rd2, nv2, l2, g1, g2, g3, ?_⟩
              intro s hs
              exact List.mem_append_right _ (g4 s hs)

theorem dfs_cover (ne : NeMap) (em : EdgeMap) (nm : NodeMap) :
    ∀ (x z : String), Reach ne x z →
      ∀ (fuel : Nat) (p : String) (L : List String),
        dfs ne em nm fuel x p = .ok L →
        (∀ v : String × String, AGet nm x = some v → occursIn v.1.data p.data = true) →
        ∀ w : String × String, AGet nm z = some w → ∃ s ∈ L, occursIn w.1.data s.data = true := by
  intro x z hreach
  induction hreach with
  | refl x =>
    intro fuel p L h hp w hw
    obtain ⟨hne, hpre⟩ := dfs_shape ne em nm fuel x p L h
    obtain ⟨s, hs⟩ := List.exists_mem_of_ne_nil L hne
    obtain ⟨u, hu⟩ := hpre s hs
    refine ⟨s, hs, ?_⟩
    rw [hu]
    exact occursIn_append_right _ _ _ (hp w hw)
  | step x y z succs hx hy hz ih =>
    intro fuel p L h hp w hw
    cases fuel with
    | zero => simp [dfs] at h
    | succ f =>
      rw [dfs] at h
      rw [hx] at h
      cases succs with
      | nil => cases hy
      | cons t rest =>
        dsimp only at h
        obtain ⟨rd, nv, l, h1, h2, h3, h4⟩ := dfsSuccs_sub (dfs ne em nm f) em nm (t :: rest) x p L h y hy
        have hpy : ∀ v : String × String, AGet nm y = some v →
            occursIn v.1.data (p ++ "->" ++ rd.1 ++ "->" ++ nv.1).data = true := by
          intro v hv
          rw [h2] at hv
          injection hv with hv
          rw [← hv]
          rw [data_append]
          exact occursIn_append_left _ _ _ (occursIn_self _)
        obtain ⟨s, hs, hocc⟩ := ih f (p ++ "->" ++ rd.1 ++ "->" ++ nv.1) l h3 hpy w hw
        exact ⟨s, h4 s hs, hocc⟩

/-- C3 counterexample: on the subgraph with the directed 2-cycle
`A-r1->B`, `B-r2->A` every node has in-degree 1, so the enumerator emits
no path at all although the subgraph has two nodes — refuting the claim
that every node appears in at least one emitted path. -/
theorem c3_counterexample :
    format_subgraph_paths sgCycle = Except.ok [] ∧ sgCycle.nodes.length = 2 := ⟨rfl, rfl⟩

/-- C3 amended: every node of the enumerator's node map that is reachable
(along the forward adjacency model) from some in-degree-0 root appears, by
name, in at least one emitted path; nodes reachable only through a
directed cycle (which has no in-degree-0 node) may appear in none. -/
theorem c3_amended (sg : Subgraph) (paths : List String)
    (nm : NodeMap) (ne : NeMap) (du : DuMap) (em : EdgeMap)
    (hm : buildModel sg = .ok (nm, ne, du, em))
    (hp : format_subgraph_paths sg = .ok paths)
    (z r : String) (hr : AGet du r = some 0) (hreach : Reach ne r z)
    (w : String × String) (hz : AGet nm z = some w) :
    ∃ s ∈ paths, occursIn w.1.data s.data = true := by
  unfold format_subgraph_paths at hp
  rw [hm] at hp
  dsimp only at hp
  obtain ⟨nv, ps, h1, h2, h3⟩ := rootsLoop_mem nm ne em (sg.nodes.length + 1) du paths r hp (AGet_mem hr)
  have hproot : ∀ v : String × String, AGet nm r = some v → occursIn v.1.data nv.1.data = true := by
    intro v hv
    rw [h1] at hv
    injection hv with hv
    rw [← hv]
    exact occursIn_self _
  obtain ⟨s, hs, hocc⟩ := dfs_cover ne em nm r z hreach (sg.nodes.length + 1) nv.1 ps h2 hproot w hz
  exact ⟨s, h3 s hs, hocc⟩

/-- C3 witness: on the chain subgraph, node `C` is reachable from the root
`A`, and its name occurs in the single emitted path. -/
theorem c3_witness :
    ∃ s ∈ ["A->rel1->B->rel2->C"], occursIn "C".data s.data = true :=
  c3_amended sgChain ["A->rel1->B->rel2->C"]
    [("nA", ("A", "")), ("nB", ("B", "")), ("nC", ("C", ""))]
    [("nA", ["nB"]), ("nB", ["nC"]), ("nC", [])]
    [("nA", 0), ("nB", 1), ("nC", 1)]
    [(("nA", "nB"), ("rel1", "d")), (("nB", "nC"), ("rel2", "d"))]
    rfl rfl "nC" "nA" rfl
    (Reach.step "nA" "nB" "nC" ["nB"] rfl (List.mem_singleton.mpr rfl)
      (Reach.step "nB" "nC" "nC" ["nC"] rfl (List.mem_singleton.mpr rfl)
        (Reach.refl "nC")))
    ("C", "") rfl

theorem assembleSubgraph_parts (records : List RawPath) (L : Option (List String)) :
    (assembleSubgraph records L).nodes =
      ((records.foldl (collectPath L) (([], []), [])).2.foldl
        (repairStep (records.foldl (collectPath L) (([], []), [])).1.1)
        ((records.foldl (collectPath L) (([], []), [])).1.2, [])).1 ∧
    (assembleSubgraph records L).edges =
      ((records.foldl (collectPath L) (([], []), [])).2.foldl
        (repairStep (records.foldl (collectPath L) (([], []), [])).1.1)
        ((records.foldl (collectPath L) (([], []), [])).1.2, [])).2 :=
  ⟨rfl, rfl⟩

theorem collect_fold_nodes (L : Option (List String)) :
    ∀ (records : List RawPath) (st : (List Node × List Node) × List Edge),
      (records.foldl (collectPath L) st).1 = (records.flatMap (fun p => p.nodes)).foldl (collectNode L) st.1 ∧
      (records.foldl (collectPath L) st).2 = (records.flatMap (fun p => p.relationships)).foldl collectRel st.2 := by
  intro records
  induction records with
  | nil => intro st; exact ⟨rfl, rfl⟩
  | cons p rest ih =>
    intro st
    rw [List.foldl_cons, List.flatMap_cons, List.flatMap_cons, List.foldl_append, List.foldl_append]
    exact ih (collectPath L st p)

theorem collectNode_skip_eq {L : Option (List String)} {st : List Node × List Node} {rn : RawNode}
    (h : st.1.any (fun n => decide (n.element_id = rn.element_id)) = true) :
    collectNode L st rn = st := by
  unfold collectNode
  rw [if_pos h]

theorem collectNode_insert_eq {L : Option (List String)} {st : List Node × List Node} {rn : RawNode}
    (h : st.1.any (fun n => decide (n.element_id = rn.element_id)) = false) :
    collectNode L st rn =
      (st.1 ++ [normalize_node rn],
        if labelFilterOk L rn.labels = true then st.2 ++ [normalize_node rn] else st.2) := by
  unfold collectNode
  rw [if_neg (by rw [h]; exact Bool.false_ne_true)]

theorem collectNodes_skip (L : Option (List String)) (k : String) :
    ∀ (ns : List RawNode) (all filt : List Node),
      all.any (fun n => decide (n.element_id = k)) = true →
      (ns.foldl (collectNode L) (all, filt)).1.filter (fun n => decide (n.element_id = k)) =
          all.filter (fun n => decide (n.element_id = k)) ∧
      (ns.foldl (collectNode L) (all, filt)).2.filter (fun n => decide (n.element_id = k)) =
          filt.filter (fun n => decide (n.element_id = k)) ∧
      (ns.foldl (collectNode L) (all, filt)).1.any (fun n => decide (n.element_id = k)) = true := by
  intro ns
  induction ns with
  | nil => intro all filt h; exact ⟨rfl, rfl, h⟩
  | cons rn rest ih =>
    intro all filt h
    rw [List.foldl_cons]
    by_cases hskip : all.any (fun n => decide (n.element_id = rn.element_id)) = true
    · rw [collectNode_skip_eq hskip]
      exact ih all filt h
    · rw [Bool.not_eq_true] at hskip
      rw [collectNode_insert_eq hskip]
      have hne : ¬(rn.element_id = k) := by
        intro he
        rw [he] at hskip
        rw [h] at hskip
        simp at hskip
      have hany2 : (all ++ [normalize_node rn]).any (fun n => decide (n.element_id = k)) = true := by
        simp [List.any_append, h]
      have hfa : (all ++ [normalize_node rn]).filter (fun n => decide (n.element_id = k)) =
          all.filter (fun n => decide (n.element_id = k)) := by
        rw [List.filter_append]
        have hsingle : List.filter (fun n => decide (n.element_id = k)) [normalize_node rn] = [] := by
          simp [List.filter, normalize_node, hne]
        rw [hsingle, List.append_nil]
      have hff : (if labelFilterOk L rn.labels = true then filt ++ [normalize_node rn] else filt).filter
            (fun n => decide (n.element_id = k)) =
          filt.filter (fun n => decide (n.element_id = k)) := by
        split
        · rw [List.filter_append]
          have hsingle : List.filter (fun n => decide (n.element_id = k)) [normalize_node rn] = [] := by
            simp [List.filter, normalize_node, hne]
          rw [hsingle, List.append_nil]
        · rfl
      obtain ⟨g1, g2, g3⟩ := ih (all ++ [normalize_node rn])
        (if labelFilterOk L rn.labels = true then filt ++ [normalize_node rn] else filt) hany2
      exact ⟨by rw [g1, hfa], by rw [g2, hff], g3⟩

theorem collectNodes_hit (L : Option (List String)) (k : String) (raw : RawNode) :
    ∀ (ns : List RawNode) (all filt : List Node),
      all.any (fun n => decide (n.element_id = k)) = false →
      ns.find? (fun rn => decide (rn.element_id = k)) = some raw →
      labelFilterOk L raw.labels = true →
      (ns.foldl (collectNode L) (all, filt)).1.filter (fun n => decide (n.element_id = k)) =
          all.filter (fun n => decide (n.element_id = k)) ++ [normalize_node raw] ∧
      (ns.foldl (collectNode L) (all, filt)).2.filter (fun n => decide (n.element_id = k)) =
          filt.filter (fun n => decide (n.element_id = k)) ++ [normalize_node raw] := by
  intro ns
  induction ns with
  | nil => intro all filt _ hfind _; cases hfind
  | cons rn rest ih =>
    intro all filt h hfind hfilter
    rw [List.foldl_cons]
    by_cases hk : rn.element_id = k
    · have hfind2 : List.find? (fun rn2 : RawNode => decide (rn2.element_id = k)) (rn :: rest) = some rn := by
        simp [List.find?_cons, hk]
      rw [hfind2] at hfind
      injection hfind with hfind
      subst hfind
      have hskip : all.any (fun n => decide (n.element_id = rn.element_id)) = false := by
        rw [hk]; exact h
      rw [collectNode_insert_eq hskip]
      rw [if_pos hfilter]
      have hany2 : (all ++ [normalize_node rn]).any (fun n => decide (n.element_id = k)) = true := by
        simp [List.any_append, normalize_node, hk]
      obtain ⟨g1, g2, g3⟩ := collectNodes_skip L k rest (all ++ [normalize_node rn]) (filt ++ [normalize_node rn]) hany2
      have hsingle : List.filter (fun n => decide (n.element_id = k)) [normalize_node rn] = [normalize_node rn] := by
        simp [List.filter, normalize_node, hk]
      constructor
      · rw [g1, List.filter_append, hsingle]
      · rw [g2, List.filter_append, hsingle]
    · have hfind2 : List.find? (fun rn2 : RawNode => decide (rn2.element_id = k)) (rn :: rest) =
          List.find? (fun rn2 : RawNode => decide (rn2.element_id = k)) rest := by
        simp [List.find?_cons, hk]
      rw [hfind2] at hfind
      by_cases hskip : all.any (fun n => decide (n.element_id = rn.element_id)) = true
      · rw [collectNode_skip_eq hskip]
        exact ih all filt h hfind hfilter
      · rw [Bool.not_eq_true] at hskip
        rw [collectNode_insert_eq hskip]
        have hany2 : (all ++ [normalize_node rn]).any (fun n => decide (n.element_id = k)) = false := by
          simp [List.any_append, h, normalize_node, hk]
        have hfa : (all ++ [normalize_node rn]).filter (fun n => decide (n.element_id = k)) =
            all.filter (fun n => decide (n.element_id = k)) := by
          rw [List.filter_append]
          have hsingle : List.filter (fun n => decide (n.element_id = k)) [normalize_node rn] = [] := by
            simp [List.filter, normalize_node, hk]
          rw [hsingle, List.append_nil]
        have hff : (if labelFilterOk L rn.labels = true then filt ++ [normalize_node rn] else filt).filter
              (fun n => decide (n.element_id = k)) =
            filt.filter (fun n => decide (n.element_id = k)) := by
          split
          · rw [List.filter_append]
            have hsingle : List.filter (fun n => decide (n.element_id = k)) [normalize_node rn] = [] := by
              simp [List.filter, normalize_node, hk]
            rw [hsingle, List.append_nil]
          · rfl
        obtain ⟨g1, g2⟩ := ih (all ++ [normalize_node rn])
          (if labelFilterOk L rn.labels = true then filt ++ [normalize_node rn] else filt) hany2 hfind hfilter
        exact ⟨by rw [g1, hfa], by rw [g2, hff]⟩

theorem pullback_pres (k tid : String) (all nodes : List Node) (hne : ¬(tid = k)) :
    (pullback all nodes tid).filter (fun n => decide (n.element_id = k)) =
      nodes.filter (fun n => decide (n.element_id = k)) ∧
    (pullback all nodes tid).any (fun n => decide (n.element_id = k)) =
      nodes.any (fun n => decide (n.element_id = k)) := by
  unfold pullback
  cases hf : all.find? (fun n => decide (n.element_id = tid)) with
  | none => exact ⟨rfl, rfl⟩
  | some n =>
    have hn : n.element_id = tid := by
      have := List.find?_some hf
      simpa using this
    constructor
    · rw [List.filter_append]
      have hs : List.filter (fun n2 => decide (n2.element_id = k)) [n] = [] := by
        simp [List.filter, hn, hne]
      rw [hs, List.append_nil]
    · rw [List.any_append]
      have hs : [n].any (fun n2 => decide (n2.element_id = k)) = false := by
        simp [hn, hne]
      rw [hs, Bool.or_false]

theorem repairNodes1_pres (k : String) (all nodes : List Node) (e : Edge)
    (h : nodes.any (fun n => decide (n.element_id = k)) = true) :
    (repairNodes1 all nodes e).filter (fun n => decide (n.element_id = k)) =
      nodes.filter (fun n => decide (n.element_id = k)) ∧
    (repairNodes1 all nodes e).any (fun n => decide (n.element_id = k)) = true := by
  unfold repairNodes1
  split
  · rename_i hcond
    have hguard : nodes.any (fun n => decide (n.element_id = e.end_node_element_id)) = false := by
      rcases Bool.and_eq_true _ _ |>.mp hcond with ⟨_, hb⟩
      simpa using hb
    have hne : ¬(e.end_node_element_id = k) := by
      intro heq
      rw [heq] at hguard
      rw [h] at hguard
      simp at hguard
    obtain ⟨p1, p2⟩ := pullback_pres k e.end_node_element_id all nodes hne
    exact ⟨p1, by rw [p2]; exact h⟩
  · exact ⟨rfl, h⟩

theorem repairNodes2_pres (k : String) (all nodes : List Node) (e : Edge)
    (h : nodes.any (fun n => decide (n.element_id = k)) = true) :
    (repairNodes2 all nodes e).filter (fun n => decide (n.element_id = k)) =
      nodes.filter (fun n => decide (n.element_id = k)) ∧
    (repairNodes2 all nodes e).any (fun n => decide (n.element_id = k)) = true := by
  obtain ⟨q1, q2⟩ := repairNodes1_pres k all nodes e h
  unfold repairNodes2
  split
  · rename_i hcond
    have hguard : (repairNodes1 all nodes e).any (fun n => decide (n.element_id = e.start_node_element_id)) = false := by
      rcases Bool.and_eq_true _ _ |>.mp hcond with ⟨_, hb⟩
      simpa using hb
    have hne : ¬(e.start_node_element_id = k) := by
      intro heq
      rw [heq] at hguard
      rw [q2] at hguard
      simp at hguard
    obtain ⟨p1, p2⟩ := pullback_pres k e.start_node_element_id all (repairNodes1 all nodes e) hne
    exact ⟨by rw [p1, q1], by rw [p2, q2]⟩
  · exact ⟨q1, q2⟩

theorem repairStep_nodes_pres (k : String) (all : List Node) (st : List Node × List Edge) (e : Edge)
    (h : st.1.any (fun n => decide (n.element_id = k)) = true) :
    (repairStep all st e).1.filter (fun n => decide (n.element_id = k)) =
      st.1.filter (fun n => decide (n.element_id = k)) ∧
    (repairStep all st e).1.any (fun n => decide (n.element_id = k)) = true := by
  unfold repairStep
  split
  · dsimp only
    exact repairNodes2_pres k all st.1 e h
  · exact ⟨rfl, h⟩

theorem repairFold_nodes_pres (k : String) (all : List Node) :
    ∀ (edges : List Edge) (st : List Node × List Edge),
      st.1.any (fun n => decide (n.element_id = k)) = true →
      (edges.foldl (repairStep all) st).1.filter (fun n => decide (n.element_id = k)) =
        st.1.filter (fun n => decide (n.element_id = k)) := by
  intro edges
  induction edges with
  | nil => intro st h; rfl
  | cons e rest ih =>
    intro st h
    rw [List.foldl_cons]
    obtain ⟨p1, p2⟩ := repairStep_nodes_pres k all st e h
    rw [ih (repairStep all st e) p2, p1]

/-- C4: if a raw node with element id `k` occurs more than once among the
raw path records and its first occurrence passes the label filter (always
true for the default `node_labels = None`), the assembled subgraph
contains exactly one node entry for `k` — the normalization of the
first-seen occurrence, whose name, description, labels and properties it
carries. -/
theorem c4_first_seen_dedup (records : List RawPath) (node_labels : Option (List String)) (k : String) (raw : RawNode)
    (hfind : (records.flatMap (fun p => p.nodes)).find? (fun rn => decide (rn.element_id = k)) = some raw)
    (hcount : 2 ≤ (records.flatMap (fun p => p.nodes)).countP (fun rn => decide (rn.element_id = k)))
    (hfilter : labelFilterOk node_labels raw.labels = true) :
    (assembleSubgraph records node_labels).nodes.filter (fun n => decide (n.element_id = k)) =
      [normalize_node raw] := by
  obtain ⟨hN, _⟩ := assembleSubgraph_parts records node_labels
  rw [hN]
  obtain ⟨hA, _⟩ := collect_fold_nodes node_labels records (([], []), [])
  rw [hA]
  obtain ⟨g1, g2⟩ := collectNodes_hit node_labels k raw (records.flatMap (fun p => p.nodes)) [] [] rfl hfind hfilter
  have hmem : normalize_node raw ∈
      ((records.flatMap (fun p => p.nodes)).foldl (collectNode node_labels) ([], [])).2.filter
        (fun n => decide (n.element_id = k)) := by
    rw [g2]
    simp
  have hany : ((records.flatMap (fun p => p.nodes)).foldl (collectNode node_labels) ([], [])).2.any
      (fun n => decide (n.element_id = k)) = true := by
    rw [List.any_eq_true]
    obtain ⟨hin, hp⟩ := List.mem_filter.mp hmem
    exact ⟨normalize_node raw, hin, hp⟩
  rw [repairFold_nodes_pres k
    ((records.flatMap (fun p => p.nodes)).foldl (collectNode node_labels) ([], [])).1
    (records.foldl (collectPath node_labels) (([], []), [])).2
    (((records.flatMap (fun p => p.nodes)).foldl (collectNode node_labels) ([], [])).2, []) hany]
  rw [g2]
  simp

/-- C4 witness: `n1` occurs twice in `recordsDup` with different names;
the assembled node set keeps exactly the first-seen entry. -/
theorem c4_witness :
    (assembleSubgraph recordsDup none).nodes.filter (fun n => decide (n.element_id = "n1")) =
      [normalize_node (rawEnt "n1" "First")] :=
  c4_first_seen_dedup recordsDup none "n1" (rawEnt "n1" "First") rfl (by decide) rfl

theorem any_id_iff {l : List Node} {x : String} :
    l.any (fun n => decide (n.element_id = x)) = true ↔ ∃ n ∈ l, n.element_id = x := by
  simp [List.any_eq_true]

theorem find?_of_any {l : List Node} {tid : String}
    (h : l.any (fun n => decide (n.element_id = tid)) = true) :
    ∃ n, l.find? (fun n2 => decide (n2.element_id = tid)) = some n ∧ n.element_id = tid := by
  induction l with
  | nil => cases h
  | cons a rest ih =>
    by_cases ha : a.element_id = tid
    · refine ⟨a, ?_, ha⟩
      simp [List.find?_cons, ha]
    · have hfind2 : List.find? (fun n2 : Node => decide (n2.element_id = tid)) (a :: rest) =
          List.find? (fun n2 : Node => decide (n2.element_id = tid)) rest := by
        simp [List.find?_cons, ha]
      rw [hfind2]
      apply ih
      rw [List.any_cons] at h
      rcases Bool.or_eq_true _ _ |>.mp h with h2 | h2
      · exact absurd (by simpa using h2) ha
      · exact h2

theorem collectNodes_any_mono (L : Option (List String)) (x : String) :
    ∀ (ns : List RawNode) (st : List Node × List Node),
      st.1.any (fun n => decide (n.element_id = x)) = true →
      (ns.foldl (collectNode L) st).1.any (fun n => decide (n.element_id = x)) = true := by
  intro ns
  induction ns with
  | nil => intro st h; exact h
  | cons rn rest ih =>
    intro st h
    rw [List.foldl_cons]
    by_cases hskip : st.1.any (fun n => decide (n.element_id = rn.element_id)) = true
    · rw [collectNode_skip_eq hskip]
      exact ih st h
    · rw [Bool.not_eq_true] at hskip
      rw [collectNode_insert_eq hskip]
      apply ih
      simp [List.any_append, h]

theorem collectNodes_covers (L : Option (List String)) :
    ∀ (ns : List RawNode) (st : List Node × List Node) (rn : RawNode), rn ∈ ns →
      (ns.foldl (collectNode L) st).1.any (fun n => decide (n.element_id = rn.element_id)) = true := by
  intro ns
  induction ns with
  | nil => intro st rn h; cases h
  | cons a rest ih =>
    intro st rn hmem
    rw [List.foldl_cons]
    rcases List.mem_cons.mp hmem with he | he
    · subst he
      by_cases hskip : st.1.any (fun n => decide (n.element_id = rn.element_id)) = true
      · rw [collectNode_skip_eq hskip]
        exact collectNodes_any_mono L rn.element_id rest st hskip
      · rw [Bool.not_eq_true] at hskip
        rw [collectNode_insert_eq hskip]
        apply collectNodes_any_mono
        simp [List.any_append, normalize_node]
    · by_cases hskip : st.1.any (fun n => decide (n.element_id = a.element_id)) = true
      · rw [collectNode_skip_eq hskip]
        exact ih st rn he
      · rw [Bool.not_eq_true] at hskip
        rw [collectNode_insert_eq hskip]
        exact ih _ rn he

theorem collectRel_skip_eq {es : List Edge} {rr : RawRel}
    (h : es.any (fun e2 => decide (e2.element_id = rr.element_id)) = true) :
    collectRel es rr = es := by
  unfold collectRel
  rw [if_pos h]

theorem collectRel_insert_eq {es : List Edge} {rr : RawRel}
    (h : es.any (fun e2 => decide (e2.element_id = rr.element_id)) = false) :
    collectRel es rr = es ++
      [ { element_id := rr.element_id, rel_type := rr.rel_type, properties := rr.properties
        , start_node_element_id := rr.start_node.element_id
        , end_node_element_id := rr.end_node.element_id } ] := by
  unfold collectRel
  rw [if_neg (by rw [h]; exact Bool.false_ne_true)]

theorem collectRel_fold_mem :
    ∀ (rs : List RawRel) (es : List Edge) (e : Edge), e ∈ rs.foldl collectRel es →
      e ∈ es ∨ ∃ rr ∈ rs,
        e = { element_id := rr.element_id, rel_type := rr.rel_type, properties := rr.properties
            , start_node_element_id := rr.start_node.element_id
            , end_node_element_id := rr.end_node.element_id } := by
  intro rs
  induction rs with
  | nil => intro es e h; exact Or.inl h
  | cons rr rest ih =>
    intro es e h
    rw [List.foldl_cons] at h
    by_cases hskip : es.any (fun e2 => decide (e2.element_id = rr.element_id)) = true
    · rw [collectRel_skip_eq hskip] at h
      rcases ih es e h with h2 | ⟨rr2, hm, he⟩
      · exact Or.inl h2
      · exact Or.inr ⟨rr2, List.mem_cons_of_mem _ hm, he⟩
    · rw [Bool.not_eq_true] at hskip
      rw [collectRel_insert_eq hskip] at h
      rcases ih _ e h with h2 | ⟨rr2, hm, he⟩
      · rcases List.mem_append.mp h2 with h3 | h3
        · exact Or.inl h3
        · exact Or.inr ⟨rr, List.mem_cons_self _ _, List.mem_singleton.mp h3⟩
      · exact Or.inr ⟨rr2, List.mem_cons_of_mem _ hm, he⟩

theorem collected_edges_endpoints (L : Option (List String)) :
    ∀ (records : List RawPath) (st : (List Node × List Node) × List Edge),
      (∀ p ∈ records, ∀ r ∈ p.relationships,
        (∃ n ∈ p.nodes, n.element_id = r.start_node.element_id) ∧
        (∃ n ∈ p.nodes, n.element_id = r.end_node.element_id)) →
      (∀ e ∈ st.2,
        st.1.1.any (fun n => decide (n.element_id = e.start_node_element_id)) = true ∧
        st.1.1.any (fun n => decide (n.element_id = e.end_node_element_id)) = true) →
      ∀ e ∈ (records.foldl (collectPath L) st).2,
        (records.foldl (collectPath L) st).1.1.any (fun n => decide (n.element_id = e.start_node_element_id)) = true ∧
        (records.foldl (collectPath L) st).1.1.any (fun n => decide (n.element_id = e.end_node_element_id)) = true := by
  intro records
  induction records with
  | nil => intro st _ hinv e he; exact hinv e he
  | cons p rest ih =>
    intro st hwf hinv
    rw [List.foldl_cons]
    apply ih (collectPath L st p)
    · intro p2 hp2 r hr
      exact hwf p2 (List.mem_cons_of_mem _ hp2) r hr
    · intro e he
      unfold collectPath at he ⊢
      dsimp only at he ⊢
      rcases collectRel_fold_mem p.relationships st.2 e he with h2 | ⟨rr, hm, hee⟩
      · obtain ⟨hs, ht⟩ := hinv e h2
        exact ⟨collectNodes_any_mono L _ p.nodes st.1 hs, collectNodes_any_mono L _ p.nodes st.1 ht⟩
      · obtain ⟨⟨n1, hn1, he1⟩, ⟨n2, hn2, he2⟩⟩ := hwf p (List.mem_cons_self _ _) rr hm
        subst hee
        dsimp only
        constructor
        · have := collectNodes_covers L p.nodes st.1 n1 hn1
          rw [he1] at this
          exact this
        · have := collectNodes_covers L p.nodes st.1 n2 hn2
          rw [he2] at this
          exact this

theorem pullback_any_mono (p : Node → Bool) (all nodes : List Node) (tid : String)
    (h : nodes.any p = true) : (pullback all nodes tid).any p = true := by
  unfold pullback
  cases all.find? (fun n => decide (n.element_id = tid)) with
  | none => exact h
  | some n => simp [List.any_append, h]

theorem repairNodes1_any_mono (p : Node → Bool) (all nodes : List Node) (e : Edge)
    (h : nodes.any p = true) : (repairNodes1 all nodes e).any p = true := by
  unfold repairNodes1
  split
  · exact pullback_any_mono p all nodes _ h
  · exact h

theorem repairNodes2_any_mono_of1 (p : Node → Bool) (all nodes : List Node) (e : Edge)
    (h : (repairNodes1 all nodes e).any p = true) : (repairNodes2 all nodes e).any p = true := by
  unfold repairNodes2
  split
  · exact pullback_any_mono p all _ _ h
  · exact h

theorem repairNodes2_any_mono (p : Node → Bool) (all nodes : List Node) (e : Edge)
    (h : nodes.any p = true) : (repairNodes2 all nodes e).any p = true :=
  repairNodes2_any_mono_of1 p all nodes e (repairNodes1_any_mono p all nodes e h)

theorem pullback_any_hit (all nodes : List Node) (tid : String)
    (h : all.any (fun n => decide (n.element_id = tid)) = true) :
    (pullback all nodes tid).any (fun n => decide (n.element_id = tid)) = true := by
  obtain ⟨n, hf, hn⟩ := find?_of_any h
  unfold pullback
  rw [hf]
  simp [List.any_append, hn]

theorem repairNodes1_id_of_start_out (all nodes : List Node) (e : Edge)
    (h : nodes.any (fun n => decide (n.element_id = e.start_node_element_id)) = false) :
    repairNodes1 all nodes e = nodes := by
  have hc : (nodes.any (fun n => decide (n.element_id = e.start_node_element_id)) &&
      !(nodes.any (fun n => decide (n.element_id = e.end_node_element_id)))) = false := by
    rw [h]
    simp
  unfold repairNodes1
  rw [if_neg (by rw [hc]; exact Bool.false_ne_true)]

theorem repairStep_kept_endpoints (all : List Node) (st : List Node × List Edge) (e : Edge)
    (hall_s : all.any (fun n => decide (n.element_id = e.start_node_element_id)) = true)
    (hall_t : all.any (fun n => decide (n.element_id = e.end_node_element_id)) = true)
    (hcase : (st.1.any (fun n => decide (n.element_id = e.start_node_element_id)) ||
              st.1.any (fun n => decide (n.element_id = e.end_node_element_id))) = true) :
    (repairStep all st e).1.any (fun n => decide (n.element_id = e.start_node_element_id)) = true ∧
    (repairStep all st e).1.any (fun n => decide (n.element_id = e.end_node_element_id)) = true := by
  have hrepair : repairStep all st e = (repairNodes2 all st.1 e, st.2 ++ [e]) := by
    unfold repairStep
    rw [if_pos hcase]
  rw [hrepair]
  dsimp only
  rcases Bool.or_eq_true _ _ |>.mp hcase with hs | ht
  · refine ⟨repairNodes2_any_mono _ all st.1 e hs, ?_⟩
    by_cases hend : st.1.any (fun n => decide (n.element_id = e.end_node_element_id)) = true
    · exact repairNodes2_any_mono _ all st.1 e hend
    · rw [Bool.not_eq_true] at hend
      have h1 : repairNodes1 all st.1 e = pullback all st.1 e.end_node_element_id := by
        unfold repairNodes1
        rw [if_pos (by rw [hs, hend]; rfl)]
      apply repairNodes2_any_mono_of1
      rw [h1]
      exact pullback_any_hit all st.1 _ hall_t
  · refine ⟨?_, repairNodes2_any_mono _ all st.1 e ht⟩
    by_cases hstart : st.1.any (fun n => decide (n.element_id = e.start_node_element_id)) = true
    · exact repairNodes2_any_mono _ all st.1 e hstart
    · rw [Bool.not_eq_true] at hstart
      have h1 : repairNodes1 all st.1 e = st.1 := repairNodes1_id_of_start_out all st.1 e hstart
      have h2 : repairNodes2 all st.1 e = pullback all st.1 e.start_node_element_id := by
        unfold repairNodes2
        rw [h1]
        rw [if_pos (by rw [ht, hstart]; rfl)]
      rw [h2]
      exact pullback_any_hit all st.1 _ hall_s

theorem repairFold_endpoints (all : List Node) :
    ∀ (edges : List Edge) (st : List Node × List Edge),
      (∀ e ∈ edges,
        all.any (fun n => decide (n.element_id = e.start_node_element_id)) = true ∧
        all.any (fun n => decide (n.element_id = e.end_node_element_id)) = true) →
      (∀ e ∈ st.2,
        st.1.any (fun n => decide (n.element_id = e.start_node_element_id)) = true ∧
        st.1.any (fun n => decide (n.element_id = e.end_node_element_id)) = true) →
      ∀ e ∈ (edges.foldl (repairStep all) st).2,
        (edges.foldl (repairStep all) st).1.any (fun n => decide (n.element_id = e.start_node_element_id)) = true ∧
        (edges.foldl (repairStep all) st).1.any (fun n => decide (n.element_id = e.end_node_element_id)) = true := by
  intro edges
  induction edges with
  | nil => intro st _ hinv e he; exact hinv e he
  | cons e2 rest ih =>
    intro st hin hinv
    rw [List.foldl_cons]
    apply ih (repairStep all st e2)
    · intro e3 he3
      exact hin e3 (List.mem_cons_of_mem _ he3)
    · intro e3 he3
      by_cases hcase : (st.1.any (fun n => decide (n.element_id = e2.start_node_element_id)) ||
          st.1.any (fun n => decide (n.element_id = e2.end_node_element_id))) = true
      · have hrw : repairStep all st e2 = (repairNodes2 all st.1 e2, st.2 ++ [e2]) := by
          unfold repairStep
          rw [if_pos hcase]
        obtain ⟨w1, w2⟩ := repairStep_kept_endpoints all st e2
          (hin e2 (List.mem_cons_self _ _)).1 (hin e2 (List.mem_cons_self _ _)).2 hcase
        rw [hrw] at he3 w1 w2 ⊢
        dsimp only at he3 w1 w2 ⊢
        rcases List.mem_append.mp he3 with h4 | h4
        · obtain ⟨g1, g2⟩ := hinv e3 h4
          exact ⟨repairNodes2_any_mono _ all st.1 e2 g1, repairNodes2_any_mono _ all st.1 e2 g2⟩
        · rw [List.mem_singleton.mp h4]
          exact ⟨w1, w2⟩
      · rw [Bool.not_eq_true] at hcase
        have hrw : repairStep all st e2 = st := by
          unfold repairStep
          rw [if_neg (by rw [hcase]; exact Bool.false_ne_true)]
        rw [hrw] at he3 ⊢
        exact hinv e3 he3

/-- C1: for every label filter (including none) and every set of raw path
records whose relationships reference nodes of their own record (as Neo4j
path objects do), each edge in the subgraph assembled by `get_subgraph`
has both of its endpoints present in the returned node list: the result
never contains a dangling edge reference. -/
theorem c1_no_dangling_edges (records : List RawPath) (node_labels : Option (List String))
    (hwf : ∀ p ∈ records, ∀ r ∈ p.relationships,
      (∃ n ∈ p.nodes, n.element_id = r.start_node.element_id) ∧
      (∃ n ∈ p.nodes, n.element_id = r.end_node.element_id)) :
    ∀ e ∈ (assembleSubgraph records node_labels).edges,
      (∃ n ∈ (assembleSubgraph records node_labels).nodes, n.element_id = e.start_node_element_id) ∧
      (∃ n ∈ (assembleSubgraph records node_labels).nodes, n.element_id = e.end_node_element_id) := by
  obtain ⟨hN, hE⟩ := assembleSubgraph_parts records node_labels
  intro e he
  rw [hE] at he
  rw [hN]
  have hend := collected_edges_endpoints node_labels records (([], []), []) hwf
    (by intro e2 h2; cases h2)
  have hmain := repairFold_endpoints
    (records.foldl (collectPath node_labels) (([], []), [])).1.1
    (records.foldl (collectPath node_labels) (([], []), [])).2
    (((records.foldl (collectPath node_labels) (([], []), [])).1.2), [])
    hend
    (by intro e2 h2; cases h2)
    e he
  exact ⟨any_id_iff.mp hmain.1, any_id_iff.mp hmain.2⟩

/-- C1 witness: with the label filter `['Entity']` excluding endpoint `n2`
(labelled `Other`), the kept edge still has both endpoints in the result:
`n2` is pulled back from the unfiltered index. -/
theorem c1_witness :
    (∃ n ∈ (assembleSubgraph recordsBoundary (some ["Entity"])).nodes, n.element_id = "n1") ∧
    (∃ n ∈ (assembleSubgraph recordsBoundary (some ["Entity"])).nodes, n.element_id = "n2") :=
  c1_no_dangling_edges recordsBoundary (some ["Entity"]) (by decide)
    { element_id := "e1", rel_type := "REL"
    , properties := [("relation_type", "REL"), ("description", "d")]
    , start_node_element_id := "n1", end_node_element_id := "n2" }
    (by decide)
